import Mathlib

/-!
Verification of VoynichExplorer (src/scripts/parser.py, folio_split.py, vsig.py)
against its specification.

The Python sources are shallowly embedded below.  Python strings are modelled
as `String` (with most work done on the underlying `List Char`), Python lists
as `List`, Python dicts as insertion-ordered association lists
(`List (String × α)`, overwriting an existing key keeps its position, as CPython
dicts do), and the SQLite tables as append-only row lists whose position is the
autoincrement primary key (sequential inserts into a fresh table produce rowids
in insertion order, so `ORDER BY <pk>` is row-list order).
Fallible Python code (uncaught `IndexError`) is modelled with `Except`.
-/

namespace Voynich

/-! ## Python string primitives -/

/-- Python whitespace for `str.strip()` / regex `\s` (ASCII range, which is all
the corpus uses). -/
def pySpace (c : Char) : Bool :=
  c = ' ' ∨ c = '\t' ∨ c = '\n' ∨ c = '\x0b' ∨ c = '\x0c' ∨ c = '\r'

/-- Regex `\w` (ASCII range): letters, digits, underscore. -/
def wordChar (c : Char) : Bool :=
  c.isAlpha ∨ c.isDigit ∨ c = '_'

/-- `str.strip()`: drop leading and trailing whitespace. -/
def pyStrip (s : String) : String :=
  ⟨((s.data.dropWhile pySpace).reverse.dropWhile pySpace).reverse⟩

/-- One scanning step list for `str.replace`: replace every non-overlapping
occurrence of `pat` in `s` by `rep`, scanning left to right.  `fuel` bounds the
recursion; each step consumes at least one character of `s` when `pat ≠ []`,
so `fuel = s.length` always suffices. -/
def replaceAux (pat rep : List Char) : Nat → List Char → List Char
  | _, [] => []
  | 0, s => s
  | fuel + 1, c :: rest =>
      if pat.isPrefixOf (c :: rest) then
        rep ++ replaceAux pat rep fuel ((c :: rest).drop pat.length)
      else
        c :: replaceAux pat rep fuel rest

/-- Python `s.replace(pat, rep)` (all occurrences, left to right,
non-overlapping).  For the empty pattern Python interleaves `rep` around every
character; no call site uses an empty pattern but we mirror it anyway. -/
def pyReplace (s pat rep : String) : String :=
  if pat.data = [] then
    ⟨rep.data ++ s.data.flatMap (fun c => c :: rep.data)⟩
  else
    ⟨replaceAux pat.data rep.data s.data.length s.data⟩

/-- Python `s.split(sep)` for a one-character separator (used with `','` and
`'.'`).  `"".split(sep) = [""]`, and separators at the ends produce empty
fields, as in Python. -/
def splitCharAux (sep : Char) : List Char → List Char → List (List Char)
  | [], cur => [cur.reverse]
  | c :: rest, cur =>
      if c = sep then cur.reverse :: splitCharAux sep rest []
      else splitCharAux sep rest (c :: cur)

def pySplitChar (s : String) (sep : Char) : List String :=
  (splitCharAux sep s.data []).map (fun cs => ⟨cs⟩)

/-- Python `sep.join(parts)`. -/
def pyJoin (sep : String) : List String → String
  | [] => ""
  | [p] => p
  | p :: rest => p ++ sep ++ pyJoin sep rest

/-- Model of Python `list(set(xs))`.  CPython's set iteration order is
hash-dependent and unspecified; we fix first-occurrence order.  No theorem in
this development depends on the order of the result, only on its membership
and duplicate-freeness, which are order-independent. -/
def pyUnique (xs : List String) : List String :=
  xs.foldl (fun acc x => if x ∈ acc then acc else acc ++ [x]) []

/-- Count of leading characters satisfying `p` (length of the maximal run a
greedy regex piece `p*` consumes). -/
def countLeading (p : Char → Bool) : List Char → Nat
  | [] => 0
  | c :: rest => if p c then countLeading p rest + 1 else 0

/-! ## `parser.py` -/

/-- `parser.py` line 9: words and the folios they appear in, as parallel
lists. -/
structure Appearances where
  words : List String
  folios : List (List String)
deriving DecidableEq, Repr

/-- `parser.py` lines 135-143, one iteration of the `while` loop: look the word
up with `list.index` (first match); on success append the folio name to that
word's folio list, on `ValueError` append the word and a fresh singleton list.
The linear `.index` search and the in-place update are written as one
recursion over the parallel lists; the off-diagonal cases (lists of different
lengths, which the source never produces) keep the same search semantics. -/
def addWord : List String → List (List String) → String → String →
    List String × List (List String)
  | [], fss, folio, w => ([w], fss ++ [[folio]])
  | w0 :: ws, [], folio, w =>
      (w0 :: (addWord ws [] folio w).1, (addWord ws [] folio w).2)
  | w0 :: ws, fs :: fss, folio, w =>
      if w0 = w then (w0 :: ws, (fs ++ [folio]) :: fss)
      else
        (w0 :: (addWord ws fss folio w).1, fs :: (addWord ws fss folio w).2)

/-- `parser.py` line 133: `('.'.join(cleaned_contents)).split('.')` — the
word tokens of a folio. -/
def folio_words (cleaned_contents : List String) : List String :=
  pySplitChar (pyJoin "." cleaned_contents) '.'

/-- The `while` loop of `parse_word_appearances`: fold `addWord` over the
unique words in processing order. -/
def index_words (folio_name : String) (appearances : Appearances)
    (uniqueWords : List String) : Appearances :=
  uniqueWords.foldl
    (fun apps w =>
      ⟨(addWord apps.words apps.folios folio_name w).1,
       (addWord apps.words apps.folios folio_name w).2⟩)
    appearances

/-- `parser.py` lines 125-143 (`parse_word_appearances`): take the word
tokens, deduplicate with `list(set(...))`, and process the unique words by
popping from the end of that list (so in reverse order of `pyUnique`). -/
def parse_word_appearances (cleaned_contents : List String)
    (appearances : Appearances) (folio_name : String) : Appearances :=
  index_words folio_name appearances
    (pyUnique (folio_words cleaned_contents)).reverse

/-- Number of `Appearance` records for the pair `(w, folio)`: the count of
`folio` in the folio list stored at the first entry for `w` (the entry
`list.index` finds), 0 when `w` is absent. -/
def countApp : List String → List (List String) → String → String → Nat
  | w0 :: ws, fs :: fss, w, folio =>
      if w0 = w then fs.count folio else countApp ws fss w folio
  | _, _, _, _ => 0

/-- `parser.py` line 104 (`parse_folio_num`): strip the angle brackets with
`str.replace`. -/
def parse_folio_num (folio_tag : String) : String :=
  pyReplace (pyReplace folio_tag "<" "") ">" ""

/-- Anchored match of the folio-boundary regex `<f\d+(?:v|r)\d*>` at the head
of `cs`: on success, the matched token and the remaining input.  `\d+` and
`\d*` are greedy; backtracking can never help because the characters required
after them (`v`/`r`, `>`) are not digits. -/
def matchToken (cs : List Char) : Option (List Char × List Char) :=
  match cs with
  | c1 :: c2 :: rest =>
      if c1 = '<' ∧ c2 = 'f' then
        let ds := rest.takeWhile Char.isDigit
        if ds = [] then none
        else
          match rest.dropWhile Char.isDigit with
          | c :: rest2 =>
              if c = 'v' ∨ c = 'r' then
                let ds2 := rest2.takeWhile Char.isDigit
                match rest2.dropWhile Char.isDigit with
                | c3 :: rest3 =>
                    if c3 = '>' then
                      some ('<' :: 'f' :: ds ++ c :: ds2 ++ ['>'], rest3)
                    else none
                | [] => none
              else none
          | [] => none
      else none
  | _ => none

/-- `t` is exactly one folio-boundary token. -/
def validToken (t : String) : Bool :=
  matchToken t.data = some (t.data, [])

/-- `parser.py` line 155: `re.split(r"(<f\d+(?:v|r)\d*>)", full_text)` with the
capturing group, i.e. leftmost-first scan for token matches.  Returns the text
before the first token and the list of (token, following text) pairs; dropping
the first component is the source's `[1:]`, and the pairs are its
`range(0, len, 2)` traversal.  Each step consumes at least one character, so
`fuel = cs.length` suffices. -/
def reSplitAux : Nat → List Char → List Char × List (List Char × List Char)
  | _, [] => ([], [])
  | 0, cs => (cs, [])
  | fuel + 1, c :: rest =>
      match matchToken (c :: rest) with
      | some (tok, rem) =>
          ([], (tok, (reSplitAux fuel rem).1) :: (reSplitAux fuel rem).2)
      | none =>
          (c :: (reSplitAux fuel rest).1, (reSplitAux fuel rest).2)

def reSplit (cs : List Char) : List Char × List (List Char × List Char) :=
  reSplitAux cs.length cs

/-- Character class `[\n|\w]` closing the paragraph regex. -/
def paraEnd (c : Char) : Bool :=
  c = '\n' ∨ c = '|' ∨ wordChar c

/-- Backtracking search for the `.+[\n|\w]` tail of the paragraph regex on
`t`: `.` matches any character but `'\n'`; `.+` greedily takes `j` characters
(largest `j` first) and `[\n|\w]` must then match `t[j]`.  `tryJ t j` returns
the largest `j' ≤ j`, `j' ≥ 1`, with `t[j']` in the class. -/
def tryJ (t : List Char) : Nat → Option Nat
  | 0 => none
  | j + 1 =>
      match t.get? (j + 1) with
      | some c => if paraEnd c then some (j + 1) else tryJ t j
      | none => tryJ t j

/-- Backtracking over the greedy `\s*` head of the paragraph regex: try `k`
whitespace characters (largest first), then the `.+[\n|\w]` tail on the rest.
Returns the total match length. -/
def tryK (cs : List Char) : Nat → Option Nat
  | 0 =>
      match tryJ cs (countLeading (fun c => c ≠ '\n') cs) with
      | some j => some (j + 1)
      | none => none
  | k + 1 =>
      let t := cs.drop (k + 1)
      match tryJ t (countLeading (fun c => c ≠ '\n') t) with
      | some j => some (k + 1 + j + 1)
      | none => tryK cs k

/-- Match of `\s*.+[\n|\w]` at the head of `cs` (the lookbehind is checked by
the caller): greedy `\s*` with backtracking, then the `.+[\n|\w]` tail.
Returns the match length. -/
def paraMatchAt (cs : List Char) : Option Nat :=
  tryK cs (countLeading pySpace cs)

/-- `re.findall(r"((?<=>)\s*.+[\n|\w])", folio_text)` from `parser.py`
line 121: scan left to right; at every position directly preceded by `'>'`
try the match; on success record it and resume after its end (matches are
non-overlapping and at least 2 characters long, so `fuel = cs.length`
suffices). -/
def paraScan : Nat → Option Char → List Char → List (List Char)
  | _, _, [] => []
  | 0, _, _ => []
  | fuel + 1, prev, c :: rest =>
      if prev = some '>' then
        match paraMatchAt (c :: rest) with
        | some n =>
            let m := (c :: rest).take n
            m :: paraScan fuel m.getLast? ((c :: rest).drop n)
        | none => paraScan fuel (some c) rest
      else paraScan fuel (some c) rest

/-- `parser.py` lines 114-122 (`clean_contents`): the `findall` above, then
strip each match and drop the ones that strip to the empty string. -/
def clean_contents (folio_text : String) : List String :=
  ((paraScan folio_text.data.length none folio_text.data).map
      (fun cs => pyStrip ⟨cs⟩)).filter (fun x => x ≠ "")

/-- Insertion into the model of a Python dict: overwriting an existing key
keeps its position, a new key is appended. -/
def dictInsert {α : Type} (d : List (String × α)) (k : String) (v : α) :
    List (String × α) :=
  match d with
  | [] => [(k, v)]
  | (k0, v0) :: rest =>
      if k0 = k then (k0, v) :: rest else (k0, v0) :: dictInsert rest k v

/-- `parser.py` lines 146-164 (`split_folios`): split on the boundary tokens,
drop the text before the first token, and for each (token, segment) pair store
`clean_contents segment` under the bracket-stripped token name (dict
assignment) and run `parse_word_appearances` on it.  Returns the folio dict
and the final `Appearances` (the source mutates its argument). -/
def split_folios (full_text : String) (appearances : Appearances) :
    List (String × List String) × Appearances :=
  let pairs := (reSplit full_text.data).2
  pairs.foldl
    (fun st ts =>
      let cleaned_contents := clean_contents ⟨ts.2⟩
      let folio_name := parse_folio_num ⟨ts.1⟩
      (dictInsert st.1 folio_name cleaned_contents,
       parse_word_appearances cleaned_contents st.2 folio_name))
    ([], appearances)

/-! ## `parser.py`: the SQLite store

The four tables are modelled as append-only row lists.  Sequential inserts
into a fresh table give strictly increasing autoincrement primary keys, so the
row-list position is the primary key and `ORDER BY <pk>` returns the rows in
list order. -/

structure DB where
  folioRows : List String
  paragraphRows : List (String × String)
  wordRows : List String
  appearsRows : List (String × String)
deriving DecidableEq, Repr

/-- `parser.py` line 32 (`insert_folios`): one row per folio name, in iterable
order. -/
def insert_folios (folios : List String) : List String := folios

/-- `parser.py` line 43 (`insert_paragraphs`): iterate the dict in insertion
order; for each folio append one `(folioName, paragraph)` row per paragraph. -/
def insert_paragraphs (folios_data : List (String × List String)) :
    List (String × String) :=
  folios_data.flatMap (fun fd => fd.2.map (fun p => (fd.1, p)))

/-- `parser.py` line 58 (`insert_words`). -/
def insert_words (words : List String) : List String := words

/-- `parser.py` line 68 (`insert_appearances`): `for i, word in
enumerate(words)`, extend with `(word, folio)` for each folio in
`folios[i]`. -/
def insert_appearances (appearances : Appearances) : List (String × String) :=
  (appearances.words.zip appearances.folios).flatMap
    (fun wf => wf.2.map (fun folio => (wf.1, folio)))

/-- `parser.py` lines 81-101 (`insert_values`): the four insertion phases. -/
def insert_values (folios_data : List (String × List String))
    (appearances : Appearances) : DB :=
  { folioRows := insert_folios (folios_data.map Prod.fst)
  , paragraphRows := insert_paragraphs folios_data
  , wordRows := insert_words appearances.words
  , appearsRows := insert_appearances appearances }

/-- `vsig.py` line 169: `SELECT folioName FROM Folio ORDER BY folioID`. -/
def query_folio_names (db : DB) : List String := db.folioRows

/-- `vsig.py` line 172: `SELECT paragraph FROM Paragraph WHERE folioName = ?
ORDER BY paragraphID`. -/
def query_paragraphs (db : DB) (folio : String) : List String :=
  (db.paragraphRows.filter (fun r => r.1 = folio)).map Prod.snd

/-- `vsig.py` line 74: `SELECT folioName FROM Appears WHERE wordName = ?
ORDER BY appearanceID`. -/
def query_appearances (db : DB) (word : String) : List String :=
  (db.appearsRows.filter (fun r => r.1 = word)).map Prod.snd

/-! ## `folio_split.py` -/

/-- Python exceptions that the modelled code can raise uncaught. -/
inductive PyErr
  | indexError
deriving DecidableEq, Repr

instance {ε α : Type} [DecidableEq ε] [DecidableEq α] : DecidableEq (Except ε α) := fun x y =>
  match x, y with
  | Except.error e, Except.error f =>
      if h : e = f then isTrue (by rw [h]) else isFalse (by simp [h])
  | Except.ok a, Except.ok b =>
      if h : a = b then isTrue (by rw [h]) else isFalse (by simp [h])
  | Except.error _, Except.ok _ => isFalse (by simp)
  | Except.ok _, Except.error _ => isFalse (by simp)

/-- The message of `IndexError` raised by `[0]` on an empty `findall` result;
it carries no reference to the data being processed. -/
def indexErrorMsg : String := "list index out of range"

/-- `folio_split.py` line 14: `re.compile(r'f\d+[v|r]]\d?').match(s)` — note
the stray `]` in the source pattern: after `f`, digits, and one character of
the class `[v|r]`, the pattern requires a literal `]` (and then an optional
digit, which matches anything).  A shorter greedy `\d+` never helps since the
class excludes digits. -/
def valid_name_match (s : String) : Bool :=
  match s.data with
  | 'f' :: rest =>
      if rest.takeWhile Char.isDigit = [] then false
      else
        match rest.dropWhile Char.isDigit with
        | c :: ']' :: _ => c = 'v' ∨ c = '|' ∨ c = 'r'
        | _ => false
  | _ => false

/-- First match of `findall(r'(f\d+)', s)`: leftmost `f` followed by at least
one digit, with the digit run taken greedily. -/
def find_fnum : List Char → Option (List Char)
  | [] => none
  | 'f' :: rest =>
      if rest.takeWhile Char.isDigit = [] then find_fnum rest
      else some ('f' :: rest.takeWhile Char.isDigit)
  | _ :: rest => find_fnum rest

/-- First match of `findall(r'(f\d+[v|r])', s)`: leftmost `f` followed by at
least one digit and a character of `[v|r]`.  A shorter greedy `\d+` never
helps because the class excludes digits, so on failure the scan moves one
position right. -/
def find_fvr : List Char → Option (List Char)
  | [] => none
  | 'f' :: rest =>
      let ds := rest.takeWhile Char.isDigit
      if ds = [] then find_fvr rest
      else
        match rest.dropWhile Char.isDigit with
        | c :: _ =>
            if c = 'v' ∨ c = '|' ∨ c = 'r' then some ('f' :: ds ++ [c])
            else find_fvr rest
        | [] => find_fvr rest
  | _ :: rest => find_fvr rest

/-- Python `s.endswith(suffix)`. -/
def pyEndsWith (s suffix : String) : Bool :=
  suffix.data.isSuffixOf s.data

/-- `folio_split.py` lines 31-44, one iteration of the loop of
`get_folio_names` at index `i`: strip, `continue` (leaving the entry
unchanged) if the buggy pattern matches, strip a `.jpg` extension with
`str.replace`, resolve a bare `v`/`r` prefix or a pure-numeric token against
`naive_folio_names[i - 1]` (for `i = 0` Python's `[-1]` reads the *last*
entry), raising `IndexError` when `findall(...)` is empty.  Returns the value
stored back into the list. -/
def gfnStep (names : List String) (i : Nat) : Except PyErr String :=
  let prev := names.getD (if i = 0 then names.length - 1 else i - 1) ""
  let folio_name := pyStrip (names.getD i "")
  if valid_name_match folio_name then Except.ok (names.getD i "")
  else
    let fn1 := if pyEndsWith folio_name ".jpg" then pyReplace folio_name ".jpg" ""
               else folio_name
    match
      (if fn1.data.head? = some 'v' ∨ fn1.data.head? = some 'r' then
        match find_fnum prev.data with
        | some p => Except.ok (String.mk p ++ fn1)
        | none => Except.error PyErr.indexError
      else Except.ok fn1 : Except PyErr String)
    with
    | Except.error e => Except.error e
    | Except.ok fn2 =>
        if fn2.data.head? = some 'f' then Except.ok fn2
        else if 'v' ∈ fn2.data ∨ 'r' ∈ fn2.data then Except.ok ("f" ++ fn2)
        else
          match find_fvr prev.data with
          | some p => Except.ok (String.mk p ++ fn2)
          | none => Except.error PyErr.indexError

/-- The loop of `get_folio_names`: process indices `0, 1, ...`, writing each
result back into the list before the next iteration.  `List.set` keeps the
length, so `fuel = names.length` runs every index. -/
def gfnAux : Nat → List String → Nat → Except PyErr (List String)
  | 0, names, _ => Except.ok names
  | fuel + 1, names, i =>
      match gfnStep names i with
      | Except.error e => Except.error e
      | Except.ok fn => gfnAux fuel (names.set i fn) (i + 1)

/-- `folio_split.py` lines 17-45 (`get_folio_names`): split the composite name
on commas and run the resolution loop. -/
def get_folio_names (name : String) : Except PyErr (List String) :=
  let naive_folio_names := pySplitChar name ','
  gfnAux naive_folio_names.length naive_folio_names 0

/-- `folio_split.py` lines 48-63 (`get_page_equivalents`): decompose every
composite name (the list comprehension propagates the first uncaught
exception), then build the single-name → composite-name dict.  The dict
comprehension plus `update` inserts the pairs of each name in order, which is
the sequential `dictInsert` below. -/
def get_page_equivalents (names : List String) :
    Except PyErr (List (String × String)) :=
  match names.mapM get_folio_names with
  | Except.error e => Except.error e
  | Except.ok folio_names =>
      Except.ok <|
        (names.zip folio_names).foldl
          (fun multi_single p =>
            p.2.foldl (fun d folio_name => dictInsert d folio_name p.1) multi_single)
          []

/-! ## `vsig.py` -/

/-- `vsig.py` lines 20-25 (`generate_missing_folios`): the known-gap folio
names. -/
def generate_missing_folios : List String :=
  let numbers : List Nat := [12] ++ List.range' 59 6 ++ [74, 91, 92, 97, 98, 109, 110]
  numbers.flatMap (fun n => ["f" ++ toString n ++ "v", "f" ++ toString n ++ "r"])

/-- `vsig.py` line 28: the module-level known-gap set. -/
def missing_folios : List String := generate_missing_folios

/-- `vsig.py` lines 32-40: the inline notice substituted for a missing
image. -/
def missing_card : String :=
  "\n            <div class=\"card error large\">\n                <div class=\"section title\"><h2>Missing Image!</h2></div>\n                <div class=\"section explanation\"><p>This image is missing! This is likely not your fault,\n                    it is extremely likely that the image is not on the server, and is an issue in our end,\n                    we are aware of the missing images and are trying hard to find them.</p>\n                </div>\n            </div>\n"

/-- `vsig.py` lines 42-46: the image block of the folio template. -/
def folio_image : String :=
  "\n            <div class=\"folio_image\">\n                <img class=\"voynich_folio_page\" src=\"../media/portrait.jpg\" alt=\"Image description\"/>\n            </div>\n"

/-- The placeholder marker for a key: `"{%" + placeholder + "%}"`. -/
def marker (placeholder : String) : String :=
  "\x7b%" ++ placeholder ++ "%\x7d"

/-- `vsig.py` lines 49-60 (`replace_templates`): one `str.replace` pass per
dictionary entry, in insertion order. -/
def replace_templates (replace_dict : List (String × String))
    (template : String) : String :=
  replace_dict.foldl
    (fun page kv => pyReplace page (marker kv.1) kv.2) template

/-- Result of rendering one page: the page text and the warnings emitted while
producing it (the source writes the page to a file and routes warnings through
`warnings.warn`; both are pure data here). -/
structure RenderResult where
  page : String
  warnings : List String
deriving DecidableEq, Repr

/-- `vsig.py` lines 127-136: the part of `generate_folio_page` before image
resolution — substitute the folio name and contents, then the
previous/next links (an absent neighbour erases the placeholder and a stale
hard-coded anchor). -/
def base_folio_page (template folio_name folio_paragraphs : String)
    (folio_before folio_after : Option String) : String :=
  let page := pyReplace template (marker "folioName") folio_name
  let page := pyReplace page (marker "contents") folio_paragraphs
  let page :=
    match folio_before with
    | some b =>
        pyReplace page (marker "before")
          ("<a id=\"before_link\" href=\"" ++ b ++ ".html\"><b><</b></a>")
    | none =>
        pyReplace (pyReplace page (marker "before") "")
          "<a href=\"f1r.html\"><<</a>" ""
  match folio_after with
  | some a =>
      pyReplace page (marker "after")
        ("<a id=\"after_link\" href=\"" ++ a ++ ".html\"><b>></b></a>")
  | none =>
      pyReplace (pyReplace page (marker "after") "")
        "<a href=\"f116v.html\">>></a>" ""

/-- `vsig.py` lines 117-146 (`generate_folio_page`).  `media` models the set
of filenames present in the `media/` directory (`exists(f'media/...')`),
`multis` the `equivalents.json` dict loaded at line 16; `missing_folios` is
the module global.  `do_warn` is accepted and ignored exactly as in the
source, whose warning guard tests `missing_folios` membership instead. -/
def generate_folio_page (media : List String) (multis : List (String × String))
    (folio_name folio_paragraphs template : String)
    (folio_before folio_after : Option String) (do_warn : Bool) : RenderResult :=
  let page := base_folio_page template folio_name folio_paragraphs
    folio_before folio_after
  let image_name :=
    match multis.lookup folio_name with
    | some n => n
    | none => folio_name ++ ".jpg"
  if image_name ∈ media then
    ⟨pyReplace page "portrait.jpg" image_name, []⟩
  else if folio_name ∉ missing_folios then
    ⟨pyReplace page folio_image missing_card,
     ["No image found for " ++ folio_name ++ "."]⟩
  else
    ⟨page, []⟩

/-- `vsig.py` lines 102-114 (`generate_folio_div`): each word of a paragraph
becomes a link, paragraphs are numbered from 1 with `<sup>` tags. -/
def generate_folio_div (paragraphs : List String) : String :=
  paragraphs.enum.foldl
    (fun s p =>
      let words := (pySplitChar p.2 '.').map
        (fun word =>
          "<a class=\"voynich-word\" href=\"../word/" ++ word ++ ".html\">" ++
            word ++ "</a>")
      s ++ "<sup>" ++ toString (p.1 + 1) ++ "</sup>" ++ pyJoin " " words ++ "</br>")
    ""

/-- `vsig.py` line 175: `None if i == 0 else folio_names[i - 1]`. -/
def folio_before_at (folio_names : List String) (i : Nat) : Option String :=
  if i = 0 then none else some (folio_names.getD (i - 1) "")

/-- `vsig.py` line 176: `None if i == len(folio_names) - 1 else
folio_names[i + 1]`. -/
def folio_after_at (folio_names : List String) (i : Nat) : Option String :=
  if i = folio_names.length - 1 then none
  else some (folio_names.getD (i + 1) "")

/-- `vsig.py` lines 160-180 (`generate_folio_pages`): read the folio names in
primary-key order and render each folio page, choosing the missing-folio
template for known-gap folios and computing the previous/next neighbours from
the enumeration index. -/
def generate_folio_pages (db : DB) (template missing_template : String)
    (media : List String) (multis : List (String × String)) :
    List (String × RenderResult) :=
  let folio_names := query_folio_names db
  folio_names.enum.map
    (fun p =>
      let i := p.1
      let folio_name := p.2
      let paragraph_text := generate_folio_div (query_paragraphs db folio_name)
      let folio_before := folio_before_at folio_names i
      let folio_after := folio_after_at folio_names i
      (folio_name,
        if folio_name ∈ missing_folios then
          generate_folio_page media multis folio_name paragraph_text
            missing_template folio_before folio_after false
        else
          generate_folio_page media multis folio_name paragraph_text
            template folio_before folio_after true))

/-! ## Auxiliary notions used by the theorem statements -/

/-- `t` is one well-formed folio-boundary token
`<f`‑digits‑(`v`|`r`)‑digits‑`>`, the language of `<f\d+(?:v|r)\d*>`. -/
def IsToken (t : String) : Prop :=
  ∃ d1 c d2, d1 ≠ [] ∧ d1.all Char.isDigit ∧ (c = 'v' ∨ c = 'r') ∧
    d2.all Char.isDigit ∧ t.data = '<' :: 'f' :: (d1 ++ c :: d2 ++ ['>'])

/-- Flatten a list of (boundary token, following segment) pairs into corpus
text. -/
def bodyOf (L : List (String × String)) : String :=
  L.foldr (fun p acc => p.1 ++ p.2 ++ acc) ""

/-- The folio dict `split_folios` is specified to build from the
(token, segment) pairs. -/
def foliosOf (L : List (String × String)) : List (String × List String) :=
  L.foldl
    (fun d p => dictInsert d (parse_folio_num p.1) (clean_contents p.2)) []

/-- The appearance index `split_folios` is specified to build from the
(token, segment) pairs. -/
def appsOf (L : List (String × String)) (appearances : Appearances) :
    Appearances :=
  L.foldl
    (fun a p => parse_word_appearances (clean_contents p.2) a
      (parse_folio_num p.1))
    appearances

/-- A template decomposed into literal chunks and placeholder markers. -/
inductive TPart where
  | hole (key : String)
  | lit (chunk : String)
deriving DecidableEq, Repr

def renderPart : TPart → String
  | TPart.hole k => marker k
  | TPart.lit c => c

/-- The template text of a decomposition. -/
def renderT (parts : List TPart) : String :=
  parts.foldr (fun p acc => renderPart p ++ acc) ""

/-- Simultaneous substitution: every hole is replaced by the value of the
first dictionary entry for its key, in one conceptual step; literal chunks
are untouched. -/
def fillPart (d : List (String × String)) : TPart → TPart
  | TPart.hole k =>
      match d.lookup k with
      | some v => TPart.lit v
      | none => TPart.hole k
  | TPart.lit c => TPart.lit c

def substituteAll (d : List (String × String)) (parts : List TPart) : String :=
  renderT (parts.map (fillPart d))

/-- A placeholder key free of the marker delimiter characters. -/
def cleanKey (k : String) : Prop :=
  ∀ c ∈ k.data, c ≠ '\x7b' ∧ c ≠ '%' ∧ c ≠ '\x7d'

/-- A string with no opening brace, hence no start of any marker. -/
def braceFree (s : String) : Prop := '\x7b' ∉ s.data

instance (k : String) : Decidable (cleanKey k) :=
  inferInstanceAs (Decidable (∀ c ∈ k.data, c ≠ '\x7b' ∧ c ≠ '%' ∧ c ≠ '\x7d'))

instance (s : String) : Decidable (braceFree s) :=
  inferInstanceAs (Decidable ('\x7b' ∉ s.data))

/-! ## Lemmas about `pyUnique` -/

theorem mem_pyUnique_aux (xs : List String) :
    ∀ (acc : List String) (a : String),
      (a ∈ xs.foldl (fun acc x => if x ∈ acc then acc else acc ++ [x]) acc ↔
        a ∈ acc ∨ a ∈ xs) := by
  induction xs with
  | nil => simp
  | cons x xs ih =>
      intro acc a
      simp only [List.foldl_cons]
      rw [ih]
      by_cases hx : x ∈ acc
      · simp only [if_pos hx, List.mem_cons]
        constructor
        · rintro (h | h)
          · exact Or.inl h
          · exact Or.inr (Or.inr h)
        · rintro (h | rfl | h)
          · exact Or.inl h
          · exact Or.inl hx
          · exact Or.inr h
      · simp only [if_neg hx, List.mem_append, List.mem_singleton, List.mem_cons]
        tauto

theorem mem_pyUnique {xs : List String} {a : String} :
    a ∈ pyUnique xs ↔ a ∈ xs := by
  have h := mem_pyUnique_aux xs [] a
  simpa [pyUnique] using h

theorem nodup_pyUnique_aux (xs : List String) :
    ∀ acc : List String, acc.Nodup →
      (xs.foldl (fun acc x => if x ∈ acc then acc else acc ++ [x]) acc).Nodup := by
  induction xs with
  | nil => intro acc h; simpa using h
  | cons x xs ih =>
      intro acc h
      simp only [List.foldl_cons]
      apply ih
      by_cases hx : x ∈ acc
      · simpa [if_pos hx] using h
      · rw [if_neg hx]
        simp [List.nodup_append, h, hx]

theorem nodup_pyUnique (xs : List String) : (pyUnique xs).Nodup :=
  nodup_pyUnique_aux xs [] (by simp)

/-! ## Lemmas about the word indexer -/

theorem addWord_length (folio w : String) :
    ∀ (ws : List String) (fss : List (List String)),
      ws.length = fss.length →
      (addWord ws fss folio w).1.length = (addWord ws fss folio w).2.length := by
  intro ws
  induction ws with
  | nil =>
      intro fss h
      cases fss with
      | nil => simp [addWord]
      | cons fs fss => simp at h
  | cons w0 ws ih =>
      intro fss h
      cases fss with
      | nil => simp at h
      | cons fs fss =>
          simp only [List.length_cons, Nat.add_right_cancel_iff] at h
          simp only [addWord]
          by_cases hw : w0 = w
          · simp [hw, h]
          · simp only [if_neg hw, List.length_cons, Nat.add_right_cancel_iff]
            exact ih fss h

theorem countApp_addWord (folio w w' f' : String) :
    ∀ (ws : List String) (fss : List (List String)),
      ws.length = fss.length →
      countApp (addWord ws fss folio w).1 (addWord ws fss folio w).2 w' f' =
        countApp ws fss w' f' + (if w' = w ∧ f' = folio then 1 else 0) := by
  intro ws
  induction ws with
  | nil =>
      intro fss h
      cases fss with
      | nil =>
          simp only [addWord, List.nil_append, countApp]
          by_cases h1 : w = w'
          · subst h1
            by_cases h2 : f' = folio
            · subst h2; simp [List.count_cons, List.count_nil]
            · simp [List.count_cons, List.count_nil, h2, Ne.symm h2]
          · have hcond : ¬ (w' = w ∧ f' = folio) := by
              rintro ⟨rfl, -⟩; exact h1 rfl
            simp [if_neg h1, fun h : w' = w => h1 h.symm, hcond]
      | cons fs fss => simp at h
  | cons w0 ws ih =>
      intro fss h
      cases fss with
      | nil => simp at h
      | cons fs fss =>
          simp only [List.length_cons, Nat.add_right_cancel_iff] at h
          simp only [addWord]
          by_cases hw : w0 = w
          · subst hw
            simp only [if_pos rfl, countApp]
            by_cases h1 : w0 = w'
            · subst h1
              by_cases h2 : f' = folio
              · subst h2; simp [List.count_append, List.count_cons, List.count_nil]
              · simp [List.count_append, List.count_cons, List.count_nil, h2,
                  Ne.symm h2]
            · have hcond : ¬ (w' = w0 ∧ f' = folio) := by
                rintro ⟨rfl, -⟩; exact h1 rfl
              simp [if_neg h1, fun h : w' = w0 => h1 h.symm, hcond]
          · simp only [if_neg hw, countApp]
            by_cases h1 : w0 = w'
            · have : ¬ (w' = w ∧ f' = folio) := by
                rintro ⟨rfl, -⟩; exact hw h1
              simp [if_pos h1, this]
            · simp only [if_neg h1]
              exact ih fss h

theorem index_words_length (folio : String) (L : List String) :
    ∀ apps : Appearances, apps.words.length = apps.folios.length →
      (index_words folio apps L).words.length =
        (index_words folio apps L).folios.length := by
  induction L with
  | nil => intro apps h; simpa [index_words] using h
  | cons x L ih =>
      intro apps h
      have : index_words folio apps (x :: L) =
          index_words folio
            ⟨(addWord apps.words apps.folios folio x).1,
             (addWord apps.words apps.folios folio x).2⟩ L := rfl
      rw [this]
      exact ih _ (addWord_length folio x apps.words apps.folios h)

theorem countApp_index_words (folio w' f' : String) (L : List String) :
    ∀ apps : Appearances, L.Nodup →
      apps.words.length = apps.folios.length →
      countApp (index_words folio apps L).words
          (index_words folio apps L).folios w' f' =
        countApp apps.words apps.folios w' f' +
          (if w' ∈ L ∧ f' = folio then 1 else 0) := by
  induction L with
  | nil => intro apps _ _; simp [index_words]
  | cons x L ih =>
      intro apps hnd hlen
      have hx : x ∉ L := by
        intro hmem
        exact (List.nodup_cons.mp hnd).1 hmem
      have hnd' : L.Nodup := (List.nodup_cons.mp hnd).2
      have hstep : index_words folio apps (x :: L) =
          index_words folio
            ⟨(addWord apps.words apps.folios folio x).1,
             (addWord apps.words apps.folios folio x).2⟩ L := rfl
      rw [hstep,
        ih _ hnd' (addWord_length folio x apps.words apps.folios hlen)]
      simp only
      rw [countApp_addWord folio x w' f' apps.words apps.folios hlen]
      by_cases h1 : w' = x
      · subst h1
        by_cases h2 : f' = folio
        · simp [h2, hx]
        · simp [h2]
      · simp [h1, List.mem_cons]

theorem parse_word_appearances_length (cs : List String) (apps : Appearances)
    (f : String) (hlen : apps.words.length = apps.folios.length) :
    (parse_word_appearances cs apps f).words.length =
      (parse_word_appearances cs apps f).folios.length :=
  index_words_length f _ apps hlen

theorem countApp_parse_word_appearances (cs : List String) (apps : Appearances)
    (f w' f' : String) (hlen : apps.words.length = apps.folios.length) :
    countApp (parse_word_appearances cs apps f).words
        (parse_word_appearances cs apps f).folios w' f' =
      countApp apps.words apps.folios w' f' +
        (if w' ∈ folio_words cs ∧ f' = f then 1 else 0) := by
  unfold parse_word_appearances
  rw [countApp_index_words f w' f' _ apps
    (by simpa using nodup_pyUnique (folio_words cs)) hlen]
  congr 1
  by_cases h : w' ∈ folio_words cs
  · simp [List.mem_reverse, mem_pyUnique, h]
  · simp [List.mem_reverse, mem_pyUnique, h]

/-! ## Lemmas about the folio splitter -/

theorem takeWhile_all_append (p : Char → Bool) (a : List Char) (c : Char)
    (b : List Char) (ha : ∀ x ∈ a, p x) (hc : ¬ p c) :
    (a ++ c :: b).takeWhile p = a := by
  induction a with
  | nil => simp [List.takeWhile_cons, hc]
  | cons x a ih =>
      have hx : p x := ha x (by simp)
      simp only [List.cons_append, List.takeWhile_cons, hx, if_true]
      rw [ih (fun y hy => ha y (by simp [hy]))]

theorem dropWhile_all_append (p : Char → Bool) (a : List Char) (c : Char)
    (b : List Char) (ha : ∀ x ∈ a, p x) (hc : ¬ p c) :
    (a ++ c :: b).dropWhile p = c :: b := by
  induction a with
  | nil => simp [List.dropWhile_cons, hc]
  | cons x a ih =>
      have hx : p x := ha x (by simp)
      simp only [List.cons_append, List.dropWhile_cons, hx, if_true]
      exact ih (fun y hy => ha y (by simp [hy]))

theorem matchToken_eq_none (c : Char) (cs : List Char) (h : ¬ c = '<') :
    matchToken (c :: cs) = none := by
  cases cs with
  | nil => rfl
  | cons c2 rest =>
      simp [matchToken, h]

theorem matchToken_token (t : String) (ht : IsToken t) (s : List Char) :
    matchToken (t.data ++ s) = some (t.data, s) := by
  obtain ⟨d1, c, d2, hne, hd1, hc, hd2, hshape⟩ := ht
  have hd1' : ∀ x ∈ d1, Char.isDigit x := by
    intro x hx; exact List.all_eq_true.mp hd1 x hx
  have hd2' : ∀ x ∈ d2, Char.isDigit x := by
    intro x hx; exact List.all_eq_true.mp hd2 x hx
  rw [hshape]
  have harr : ('<' :: 'f' :: (d1 ++ c :: d2 ++ ['>'])) ++ s =
      '<' :: 'f' :: (d1 ++ c :: (d2 ++ '>' :: s)) := by
    simp
  rw [harr]
  rcases hc with rfl | rfl
  · have htw1 : (d1 ++ 'v' :: (d2 ++ '>' :: s)).takeWhile Char.isDigit = d1 :=
      takeWhile_all_append _ d1 'v' _ hd1' (by decide)
    have hdw1 : (d1 ++ 'v' :: (d2 ++ '>' :: s)).dropWhile Char.isDigit =
        'v' :: (d2 ++ '>' :: s) :=
      dropWhile_all_append _ d1 'v' _ hd1' (by decide)
    have htw2 : (d2 ++ '>' :: s).takeWhile Char.isDigit = d2 :=
      takeWhile_all_append _ d2 '>' _ hd2' (by decide)
    have hdw2 : (d2 ++ '>' :: s).dropWhile Char.isDigit = '>' :: s :=
      dropWhile_all_append _ d2 '>' _ hd2' (by decide)
    simp [matchToken, htw1, hdw1, htw2, hdw2, hne]
  · have htw1 : (d1 ++ 'r' :: (d2 ++ '>' :: s)).takeWhile Char.isDigit = d1 :=
      takeWhile_all_append _ d1 'r' _ hd1' (by decide)
    have hdw1 : (d1 ++ 'r' :: (d2 ++ '>' :: s)).dropWhile Char.isDigit =
        'r' :: (d2 ++ '>' :: s) :=
      dropWhile_all_append _ d1 'r' _ hd1' (by decide)
    have htw2 : (d2 ++ '>' :: s).takeWhile Char.isDigit = d2 :=
      takeWhile_all_append _ d2 '>' _ hd2' (by decide)
    have hdw2 : (d2 ++ '>' :: s).dropWhile Char.isDigit = '>' :: s :=
      dropWhile_all_append _ d2 '>' _ hd2' (by decide)
    simp [matchToken, htw1, hdw1, htw2, hdw2, hne]

theorem matchToken_some_decomp (cs tok rem : List Char)
    (h : matchToken cs = some (tok, rem)) : cs = tok ++ rem ∧ tok ≠ [] := by
  cases cs with
  | nil => simp [matchToken] at h
  | cons c1 cs1 =>
      cases cs1 with
      | nil => simp [matchToken] at h
      | cons c2 rest =>
          simp only [matchToken] at h
          split at h
          case isFalse => exact absurd h (by simp)
          case isTrue h12 =>
            split at h
            case isTrue => exact absurd h (by simp)
            case isFalse hds =>
              split at h
              case h_2 => exact absurd h (by simp)
              case h_1 c rest2 hdw =>
                split at h
                case isFalse => exact absurd h (by simp)
                case isTrue hcvr =>
                  split at h
                  case h_2 => exact absurd h (by simp)
                  case h_1 c3 rest3 hdw2 =>
                    split at h
                    case isFalse => exact absurd h (by simp)
                    case isTrue hc3 =>
                      obtain ⟨htok, hrem⟩ : _ ∧ rest3 = rem := by simpa using h
                      subst hrem
                      obtain ⟨rfl, rfl⟩ := h12
                      constructor
                      · rw [← htok]
                        have e1 : rest = rest.takeWhile Char.isDigit ++
                            (c :: rest2) := by
                          conv_lhs => rw [← List.takeWhile_append_dropWhile
                            (p := Char.isDigit) (l := rest)]
                          rw [hdw]
                        have e2 : rest2 = rest2.takeWhile Char.isDigit ++
                            (c3 :: rest3) := by
                          conv_lhs => rw [← List.takeWhile_append_dropWhile
                            (p := Char.isDigit) (l := rest2)]
                          rw [hdw2]
                        subst hc3
                        conv_lhs => rw [e1, e2]
                        simp
                      · rw [← htok]; simp

theorem reSplitAux_fuel :
    ∀ (fuel fuel' : Nat) (cs : List Char), cs.length ≤ fuel →
      cs.length ≤ fuel' → reSplitAux fuel cs = reSplitAux fuel' cs := by
  intro fuel
  induction fuel with
  | zero =>
      intro fuel' cs h h'
      have : cs = [] := List.length_eq_zero.mp (Nat.le_zero.mp h)
      subst this
      cases fuel' <;> rfl
  | succ f ih =>
      intro fuel' cs h h'
      cases cs with
      | nil => cases fuel' <;> rfl
      | cons c rest =>
          cases fuel' with
          | zero => simp at h'
          | succ g =>
              simp only [reSplitAux]
              cases hm : matchToken (c :: rest) with
              | none =>
                  have hr : rest.length ≤ f := by
                    simp only [List.length_cons] at h; omega
                  have hr' : rest.length ≤ g := by
                    simp only [List.length_cons] at h'; omega
                  dsimp only
                  rw [ih g rest hr hr']
              | some p =>
                  obtain ⟨tok, rem⟩ := p
                  obtain ⟨hdec, hne⟩ := matchToken_some_decomp _ _ _ hm
                  have hlt : rem.length < (c :: rest).length := by
                    have h1 : 0 < tok.length := List.length_pos.mpr hne
                    have h2 : (c :: rest).length = tok.length + rem.length := by
                      rw [hdec, List.length_append]
                    omega
                  have hr : rem.length ≤ f := by omega
                  have hr' : rem.length ≤ g := by omega
                  dsimp only
                  rw [ih g rem hr hr']

theorem reSplit_cons_no_lt (c : Char) (cs : List Char) (h : ¬ c = '<') :
    reSplit (c :: cs) = (c :: (reSplit cs).1, (reSplit cs).2) := by
  simp only [reSplit, List.length_cons, reSplitAux, matchToken_eq_none c cs h]

theorem reSplit_front (a s : List Char) (h : ∀ c ∈ a, ¬ c = '<') :
    reSplit (a ++ s) = (a ++ (reSplit s).1, (reSplit s).2) := by
  induction a with
  | nil => simp
  | cons c a ih =>
      have hc : ¬ c = '<' := h c (by simp)
      rw [List.cons_append, reSplit_cons_no_lt c (a ++ s) hc,
        ih (fun x hx => h x (by simp [hx]))]
      simp

theorem reSplit_token (t : String) (ht : IsToken t) (s : List Char) :
    reSplit (t.data ++ s) = ([], (t.data, (reSplit s).1) :: (reSplit s).2) := by
  obtain ⟨d1, c, d2, hne, hd1, hc, hd2, hshape⟩ := ht
  have hcons : t.data ++ s = '<' :: ('f' :: (d1 ++ c :: d2 ++ ['>']) ++ s) := by
    rw [hshape]; simp
  have hm : matchToken (t.data ++ s) = some (t.data, s) :=
    matchToken_token t ⟨d1, c, d2, hne, hd1, hc, hd2, hshape⟩ s
  have hlen : (t.data ++ s).length = t.data.length + s.length :=
    List.length_append _ _
  have hpos : 1 ≤ t.data.length := by
    rw [hshape]; simp
  obtain ⟨F, hF⟩ : ∃ F, (t.data ++ s).length = F + 1 := by
    rw [hlen]; exact ⟨t.data.length + s.length - 1, by omega⟩
  have hsF : s.length ≤ F := by
    rw [hlen] at hF; omega
  unfold reSplit
  rw [hF, hcons]
  simp only [reSplitAux]
  rw [← hcons, hm]
  dsimp only
  rw [reSplitAux_fuel F s.length s hsF (Nat.le_refl _)]

theorem foldl_prod {α β γ : Type} (g1 : α → γ → α) (g2 : β → γ → β)
    (L : List γ) :
    ∀ (a : α) (b : β),
      L.foldl (fun st p => (g1 st.1 p, g2 st.2 p)) (a, b) =
        (L.foldl g1 a, L.foldl g2 b) := by
  induction L with
  | nil => intro a b; rfl
  | cons x L ih => intro a b; simp only [List.foldl_cons]; exact ih _ _

theorem reSplit_bodyOf (L : List (String × String))
    (hL : ∀ p ∈ L, IsToken p.1 ∧ ∀ c ∈ p.2.data, ¬ c = '<') :
    reSplit (bodyOf L).data = ([], L.map (fun p => (p.1.data, p.2.data))) := by
  induction L with
  | nil => rfl
  | cons p L ih =>
      obtain ⟨t, s⟩ := p
      have hdata : (bodyOf ((t, s) :: L)).data =
          t.data ++ (s.data ++ (bodyOf L).data) := by
        show (t ++ s ++ bodyOf L).data = _
        simp [String.data_append]
      rw [hdata, reSplit_token t (hL (t, s) (by simp)).1,
        reSplit_front s.data (bodyOf L).data (hL (t, s) (by simp)).2,
        ih (fun q hq => hL q (by simp [hq]))]
      simp

theorem split_folios_spec (pre : String) (L : List (String × String))
    (appearances : Appearances)
    (hpre : ∀ c ∈ pre.data, ¬ c = '<')
    (hL : ∀ p ∈ L, IsToken p.1 ∧ ∀ c ∈ p.2.data, ¬ c = '<') :
    split_folios (pre ++ bodyOf L) appearances =
      (foliosOf L, appsOf L appearances) := by
  unfold split_folios
  have hdata : (pre ++ bodyOf L).data = pre.data ++ (bodyOf L).data :=
    String.data_append _ _
  rw [hdata, reSplit_front pre.data _ hpre, reSplit_bodyOf L hL]
  simp only [List.foldl_map]
  rw [foldl_prod
    (fun d (p : String × String) =>
      dictInsert d (parse_folio_num ⟨p.1.data⟩) (clean_contents ⟨p.2.data⟩))
    (fun a (p : String × String) =>
      parse_word_appearances (clean_contents ⟨p.2.data⟩) a
        (parse_folio_num ⟨p.1.data⟩))
    L [] appearances]
  rfl

theorem appsOf_length (L : List (String × String)) :
    ∀ apps : Appearances, apps.words.length = apps.folios.length →
      (appsOf L apps).words.length = (appsOf L apps).folios.length := by
  induction L with
  | nil => intro apps h; exact h
  | cons p L ih =>
      intro apps h
      exact ih _ (parse_word_appearances_length _ apps _ h)

theorem countApp_appsOf (w f : String) (L : List (String × String)) :
    ∀ apps : Appearances, apps.words.length = apps.folios.length →
      countApp (appsOf L apps).words (appsOf L apps).folios w f =
        countApp apps.words apps.folios w f +
          L.countP (fun p => decide (w ∈ folio_words (clean_contents p.2) ∧
            f = parse_folio_num p.1)) := by
  induction L with
  | nil => intro apps _; simp [appsOf]
  | cons p L ih =>
      intro apps hlen
      have hstep : appsOf (p :: L) apps =
          appsOf L (parse_word_appearances (clean_contents p.2) apps
            (parse_folio_num p.1)) := rfl
      rw [hstep, ih _ (parse_word_appearances_length _ apps _ hlen),
        countApp_parse_word_appearances _ apps _ w f hlen, List.countP_cons]
      simp only [decide_eq_true_eq]
      omega

theorem countP_of_nodup_names (w t s : String) :
    ∀ L : List (String × String),
      (L.map (fun p => parse_folio_num p.1)).Nodup → (t, s) ∈ L →
      L.countP (fun p => decide (w ∈ folio_words (clean_contents p.2) ∧
          parse_folio_num t = parse_folio_num p.1)) =
        if w ∈ folio_words (clean_contents s) then 1 else 0 := by
  intro L
  induction L with
  | nil => intro _ h; simp at h
  | cons p0 L ih =>
      obtain ⟨t0, s0⟩ := p0
      intro hnd hmem
      rw [List.map_cons] at hnd
      have hnd2 := List.nodup_cons.mp hnd
      rw [List.countP_cons]
      rcases List.mem_cons.mp hmem with heq | hmem'
      · obtain ⟨rfl, rfl⟩ := Prod.mk.injEq .. ▸ heq
        have hz : L.countP (fun p =>
            decide (w ∈ folio_words (clean_contents p.2) ∧
              parse_folio_num t = parse_folio_num p.1)) = 0 := by
          rw [List.countP_eq_zero]
          intro q hq
          simp only [decide_eq_true_eq, not_and]
          intro _ hqt
          exact hnd2.1 (hqt ▸ List.mem_map_of_mem
            (fun p => parse_folio_num p.1) hq)
        rw [hz]
        by_cases hw : w ∈ folio_words (clean_contents s)
        · simp [hw]
        · simp [hw]
      · have hne : ¬ parse_folio_num t = parse_folio_num t0 := by
          intro hqt
          exact hnd2.1 (hqt ▸ List.mem_map_of_mem
            (fun p => parse_folio_num p.1) hmem')
        simp only [decide_eq_true_eq, hne, and_false, if_false]
        rw [ih hnd2.2 hmem']
        omega

/-! ## Lemmas about the store round trip -/

theorem rows_filter_key {α : Type} (k : String) (vs : List α) :
    ∀ L : List (String × List α),
      (L.map Prod.fst).Nodup → (k, vs) ∈ L →
      (((L.flatMap (fun q => q.2.map (fun x => (q.1, x)))).filter
          (fun r => r.1 = k)).map Prod.snd) = vs := by
  intro L
  induction L with
  | nil => intro _ h; simp at h
  | cons q0 L ih =>
      obtain ⟨k0, l0⟩ := q0
      intro hnd hmem
      rw [List.map_cons] at hnd
      have hnd2 := List.nodup_cons.mp hnd
      simp only [List.flatMap_cons, List.filter_append, List.map_append]
      rcases List.mem_cons.mp hmem with heq | hmem'
      · obtain ⟨rfl, rfl⟩ := Prod.mk.injEq .. ▸ heq
        have h1 : (vs.map (fun x => (k, x))).filter
            (fun r => r.1 = k) = vs.map (fun x => (k, x)) := by
          rw [List.filter_eq_self]
          intro a ha
          obtain ⟨x, -, rfl⟩ := List.mem_map.mp ha
          simp
        have h2 : (L.flatMap (fun q => q.2.map (fun x => (q.1, x)))).filter
            (fun r => r.1 = k) = [] := by
          rw [List.filter_eq_nil_iff]
          intro a ha
          obtain ⟨q, hq, haq⟩ := List.mem_flatMap.mp ha
          obtain ⟨x, -, rfl⟩ := List.mem_map.mp haq
          simp only [decide_eq_true_eq]
          intro hqk
          have hmm : k ∈ List.map Prod.fst L := by
            rw [← hqk]
            exact List.mem_map_of_mem Prod.fst hq
          exact hnd2.1 hmm
        rw [h1, h2]
        simp [List.map_map, Function.comp]
      · have hne : ¬ k0 = k := by
          intro hqk
          have hmm : k ∈ List.map Prod.fst L :=
            List.mem_map_of_mem Prod.fst hmem'
          have hmm0 : k0 ∈ List.map Prod.fst L := by rw [hqk]; exact hmm
          exact hnd2.1 hmm0
        have h1 : (l0.map (fun x => (k0, x))).filter
            (fun r => r.1 = k) = [] := by
          rw [List.filter_eq_nil_iff]
          intro a ha
          obtain ⟨x, -, rfl⟩ := List.mem_map.mp ha
          simpa using hne
        rw [h1, ih hnd2.2 hmem']
        simp

/-! ## Claims C1, C7, C9, C10: parser and indexer -/

/-- C1, counterexample: as stated, the claim fails when the same boundary
token occurs twice.  In the corpus below the parsed corpus maps folio `f2r`
to `["d.f"]`, the word `d` occurs in that folio, yet the index holds two
Appearances of `(d, f2r)`: `parse_word_appearances` ran on both segments. -/
theorem claim1_counterexample :
    (split_folios "<f2r>y>d.e\n<f2r>y>d.f\n" ⟨[], []⟩).1 = [("f2r", ["d.f"])] ∧
    "d" ∈ folio_words ["d.f"] ∧
    countApp (split_folios "<f2r>y>d.e\n<f2r>y>d.f\n" ⟨[], []⟩).2.words
      (split_folios "<f2r>y>d.e\n<f2r>y>d.f\n" ⟨[], []⟩).2.folios
      "d" "f2r" = 2 := by
  refine ⟨by decide, by decide, by decide⟩

/-- C1, amended: for a corpus whose boundary tokens carry pairwise distinct
folio names, every folio of the parsed corpus and every word occurring in it
(no matter how often) yield exactly one Appearance for the (word, folio)
pair. -/
theorem claim1_exactly_one_appearance (pre : String)
    (L : List (String × String))
    (hpre : ∀ c ∈ pre.data, ¬ c = '<')
    (hL : ∀ p ∈ L, IsToken p.1 ∧ ∀ c ∈ p.2.data, ¬ c = '<')
    (hnames : (L.map (fun p => parse_folio_num p.1)).Nodup)
    (t s : String) (hmem : (t, s) ∈ L) (w : String)
    (hw : w ∈ folio_words (clean_contents s)) :
    countApp (split_folios (pre ++ bodyOf L) ⟨[], []⟩).2.words
      (split_folios (pre ++ bodyOf L) ⟨[], []⟩).2.folios
      w (parse_folio_num t) = 1 := by
  rw [split_folios_spec pre L _ hpre hL]
  have h0 : (Appearances.mk [] []).words.length =
      (Appearances.mk [] []).folios.length := rfl
  rw [countApp_appsOf w (parse_folio_num t) L ⟨[], []⟩ h0]
  rw [countP_of_nodup_names w t s L hnames hmem]
  simp [countApp, hw]

/-- C1, witness for the amended theorem at the corpus `<f1r>y>a.a.b\n`:
the word `a` occurs twice in folio `f1r` and gets exactly one Appearance. -/
theorem claim1_witness :
    countApp (split_folios ("" ++ bodyOf [("<f1r>", "y>a.a.b\n")])
        ⟨[], []⟩).2.words
      (split_folios ("" ++ bodyOf [("<f1r>", "y>a.a.b\n")]) ⟨[], []⟩).2.folios
      "a" (parse_folio_num "<f1r>") = 1 :=
  claim1_exactly_one_appearance "" [("<f1r>", "y>a.a.b\n")]
    (by intro c hc; simp at hc)
    (by
      intro p hp
      rcases List.mem_cons.mp hp with rfl | hp2
      · exact ⟨⟨['1'], 'r', [], by decide, by decide, Or.inr rfl, by decide,
          by decide⟩, by decide⟩
      · simp at hp2)
    (by decide) "<f1r>" "y>a.a.b\n" (by decide) "a" (by decide)

/-- C7: the parser pairs each boundary token with the text up to the next
token (each folio name is bound to the cleaned contents of exactly the
segment after its token, dict-insertion over the pairs in order), text before
the first token never influences the result, and the empty input yields the
empty mapping. -/
theorem claim7_split_pairing (pre : String) (L : List (String × String))
    (appearances : Appearances)
    (hpre : ∀ c ∈ pre.data, ¬ c = '<')
    (hL : ∀ p ∈ L, IsToken p.1 ∧ ∀ c ∈ p.2.data, ¬ c = '<') :
    split_folios (pre ++ bodyOf L) appearances =
      (foliosOf L, appsOf L appearances) ∧
    split_folios (pre ++ bodyOf L) appearances =
      split_folios (bodyOf L) appearances ∧
    split_folios "" appearances = ([], appearances) := by
  have h1 := split_folios_spec pre L appearances hpre hL
  have h2 := split_folios_spec "" L appearances (by intro c hc; simp at hc) hL
  exact ⟨h1, h1.trans h2.symm, rfl⟩

/-- C7, witness: a corpus with front matter and two folios. -/
theorem claim7_witness :
    split_folios ("junk " ++ bodyOf [("<f1r>", "x>a.b\n"), ("<f2v>", "x>c\n")])
        ⟨[], []⟩ =
      (foliosOf [("<f1r>", "x>a.b\n"), ("<f2v>", "x>c\n")],
        appsOf [("<f1r>", "x>a.b\n"), ("<f2v>", "x>c\n")] ⟨[], []⟩) ∧
    split_folios "" (⟨[], []⟩ : Appearances) = ([], (⟨[], []⟩ : Appearances)) :=
  have h := claim7_split_pairing "junk " [("<f1r>", "x>a.b\n"), ("<f2v>", "x>c\n")]
    ⟨[], []⟩ (by decide)
    (by
      intro p hp
      rcases List.mem_cons.mp hp with rfl | hp2
      · exact ⟨⟨['1'], 'r', [], by decide, by decide, Or.inr rfl, by decide,
          by decide⟩, by decide⟩
      rcases List.mem_cons.mp hp2 with rfl | hp3
      · exact ⟨⟨['2'], 'v', [], by decide, by decide, Or.inl rfl, by decide,
          by decide⟩, by decide⟩
      · simp at hp3)
  ⟨h.1, h.2.2⟩

/-- C9: when the same boundary token heads two segments, the folio dict keeps
only the last segment's cleaned paragraphs, while the indexer runs on both
segments, so a word occurring in both lists the folio twice. -/
theorem claim9_duplicate_folio (pre t s1 s2 : String)
    (hpre : ∀ c ∈ pre.data, ¬ c = '<')
    (ht : IsToken t)
    (hs1 : ∀ c ∈ s1.data, ¬ c = '<') (hs2 : ∀ c ∈ s2.data, ¬ c = '<')
    (w : String)
    (hw1 : w ∈ folio_words (clean_contents s1))
    (hw2 : w ∈ folio_words (clean_contents s2)) :
    (split_folios (pre ++ bodyOf [(t, s1), (t, s2)]) ⟨[], []⟩).1 =
      [(parse_folio_num t, clean_contents s2)] ∧
    countApp (split_folios (pre ++ bodyOf [(t, s1), (t, s2)]) ⟨[], []⟩).2.words
      (split_folios (pre ++ bodyOf [(t, s1), (t, s2)]) ⟨[], []⟩).2.folios
      w (parse_folio_num t) = 2 := by
  have hL : ∀ p ∈ [(t, s1), (t, s2)], IsToken p.1 ∧ ∀ c ∈ p.2.data, ¬ c = '<' := by
    intro p hp
    rcases List.mem_cons.mp hp with rfl | hp2
    · exact ⟨ht, hs1⟩
    rcases List.mem_cons.mp hp2 with rfl | hp3
    · exact ⟨ht, hs2⟩
    · simp at hp3
  rw [split_folios_spec pre _ _ hpre hL]
  constructor
  · simp [foliosOf, dictInsert]
  · have h0 : (Appearances.mk [] []).words.length =
        (Appearances.mk [] []).folios.length := rfl
    rw [countApp_appsOf w (parse_folio_num t) _ ⟨[], []⟩ h0]
    simp [List.countP_cons, hw1, hw2, countApp]

/-- C9, witness: token `<f3v>` twice; the word `a` occurs in both
segments. -/
theorem claim9_witness :
    (split_folios ("" ++ bodyOf [("<f3v>", "q>a.b\n"), ("<f3v>", "q>a.c\n")])
        ⟨[], []⟩).1 =
      [(parse_folio_num "<f3v>", clean_contents "q>a.c\n")] ∧
    countApp (split_folios
        ("" ++ bodyOf [("<f3v>", "q>a.b\n"), ("<f3v>", "q>a.c\n")])
        ⟨[], []⟩).2.words
      (split_folios ("" ++ bodyOf [("<f3v>", "q>a.b\n"), ("<f3v>", "q>a.c\n")])
        ⟨[], []⟩).2.folios
      "a" (parse_folio_num "<f3v>") = 2 :=
  claim9_duplicate_folio "" "<f3v>" "q>a.b\n" "q>a.c\n" (by decide)
    ⟨['3'], 'v', [], by decide, by decide, Or.inl rfl, by decide, by decide⟩
    (by decide) (by decide) "a" (by decide) (by decide)

/-- C10: a folio with an empty cleaned paragraph list contributes the empty
string as a word — `'.'.join([])` is `""` and `"".split('.')` is `[""]` —
and the indexer adds one Appearance of `("", folio)`. -/
theorem claim10_empty_paragraphs (appearances : Appearances) (f : String)
    (hlen : appearances.words.length = appearances.folios.length) :
    folio_words [] = [""] ∧
    countApp (parse_word_appearances [] appearances f).words
      (parse_word_appearances [] appearances f).folios "" f =
      countApp appearances.words appearances.folios "" f + 1 := by
  refine ⟨rfl, ?_⟩
  rw [countApp_parse_word_appearances [] appearances f "" f hlen]
  have hmem : "" ∈ folio_words [] := by decide
  simp [hmem]

/-- C10, witness: starting from the empty index, an empty folio `f1r` gives
the empty-string word one Appearance. -/
theorem claim10_witness :
    folio_words [] = [""] ∧
    countApp (parse_word_appearances [] ⟨[], []⟩ "f1r").words
      (parse_word_appearances [] ⟨[], []⟩ "f1r").folios "" "f1r" =
      countApp ([] : List String) ([] : List (List String)) "" "f1r" + 1 :=
  claim10_empty_paragraphs ⟨[], []⟩ "f1r" rfl

/-! ## Claim C2: store round trip -/

/-- C2: writing the parse result into the store and reading it back through
the renderer's primary-key-ordered queries reproduces the folio order, each
folio's paragraph list in order, and each word's folio list in indexer
order.  The hypotheses are the store's uniqueness constraints (folio and word
names unique), which hold for parser output by construction (`folios_data` is
a dict, `appearances.words` is deduplicated). -/
theorem claim2_store_round_trip (folios_data : List (String × List String))
    (appearances : Appearances)
    (hkeys : (folios_data.map Prod.fst).Nodup)
    (hwords : appearances.words.Nodup)
    (hlen : appearances.words.length = appearances.folios.length) :
    query_folio_names (insert_values folios_data appearances) =
      folios_data.map Prod.fst ∧
    (∀ f ps, (f, ps) ∈ folios_data →
      query_paragraphs (insert_values folios_data appearances) f = ps) ∧
    (∀ w fs, (w, fs) ∈ appearances.words.zip appearances.folios →
      query_appearances (insert_values folios_data appearances) w = fs) := by
  refine ⟨rfl, ?_, ?_⟩
  · intro f ps hmem
    exact rows_filter_key f ps folios_data hkeys hmem
  · intro w fs hmem
    have hznd : ((appearances.words.zip appearances.folios).map Prod.fst).Nodup := by
      rw [List.map_fst_zip _ _ (le_of_eq hlen)]
      exact hwords
    exact rows_filter_key w fs _ hznd hmem

/-- C2, witness: the parse of `<f1r>x>a.b\n<f2v>x>b.c\n` round-trips: folio
order `f1r, f2v`, the paragraphs of `f1r`, and the folio list of the word `b`
(which appears in both folios, in parse order) are reproduced. -/
theorem claim2_witness :
    query_folio_names (insert_values [("f1r", ["a.b"]), ("f2v", ["b.c"])]
      ⟨["b", "a", "c"], [["f1r", "f2v"], ["f1r"], ["f2v"]]⟩) = ["f1r", "f2v"] ∧
    query_paragraphs (insert_values [("f1r", ["a.b"]), ("f2v", ["b.c"])]
      ⟨["b", "a", "c"], [["f1r", "f2v"], ["f1r"], ["f2v"]]⟩) "f1r" = ["a.b"] ∧
    query_appearances (insert_values [("f1r", ["a.b"]), ("f2v", ["b.c"])]
      ⟨["b", "a", "c"], [["f1r", "f2v"], ["f1r"], ["f2v"]]⟩) "b" =
      ["f1r", "f2v"] :=
  have h := claim2_store_round_trip [("f1r", ["a.b"]), ("f2v", ["b.c"])]
    ⟨["b", "a", "c"], [["f1r", "f2v"], ["f1r"], ["f2v"]]⟩
    (by decide) (by decide) (by decide)
  ⟨h.1, h.2.1 "f1r" ["a.b"] (by decide),
    h.2.2 "b" ["f1r", "f2v"] (by decide)⟩

/-! ## The parser establishes the store's uniqueness constraints -/

theorem mem_dictInsert_keys {α : Type} (x k : String) (v : α) :
    ∀ d : List (String × α),
      (x ∈ (dictInsert d k v).map Prod.fst ↔ x ∈ d.map Prod.fst ∨ x = k) := by
  intro d
  induction d with
  | nil => simp [dictInsert]
  | cons kv d ih =>
      obtain ⟨k0, v0⟩ := kv
      by_cases h : k0 = k
      · subst h
        simp only [dictInsert, eq_self_iff_true, ite_true, List.map_cons,
          List.mem_cons]
        tauto
      · simp only [dictInsert, if_neg h, List.map_cons, List.mem_cons, ih]
        tauto

theorem dictInsert_keys_nodup {α : Type} (k : String) (v : α) :
    ∀ d : List (String × α), (d.map Prod.fst).Nodup →
      ((dictInsert d k v).map Prod.fst).Nodup := by
  intro d
  induction d with
  | nil => intro _; simp [dictInsert]
  | cons kv d ih =>
      obtain ⟨k0, v0⟩ := kv
      intro hnd
      rw [List.map_cons] at hnd
      have hnd2 := List.nodup_cons.mp hnd
      by_cases h : k0 = k
      · subst h
        simpa [dictInsert] using hnd
      · simp only [dictInsert, if_neg h, List.map_cons]
        rw [List.nodup_cons]
        refine ⟨?_, ih hnd2.2⟩
        intro hmem
        rcases (mem_dictInsert_keys k0 k v d).mp hmem with h2 | h2
        · exact hnd2.1 h2
        · exact h h2

theorem fold_dictInsert_keys_nodup {γ α : Type} (f : γ → String) (g : γ → α) :
    ∀ (L : List γ) (d : List (String × α)), (d.map Prod.fst).Nodup →
      ((L.foldl (fun d p => dictInsert d (f p) (g p)) d).map Prod.fst).Nodup := by
  intro L
  induction L with
  | nil => intro d h; exact h
  | cons p L ih =>
      intro d h
      rw [List.foldl_cons]
      exact ih _ (dictInsert_keys_nodup _ _ d h)

/-- The folio dict built by the parser has pairwise distinct keys, satisfying
the store's `folioName UNIQUE` constraint. -/
theorem foliosOf_keys_nodup (L : List (String × String)) :
    ((foliosOf L).map Prod.fst).Nodup := by
  unfold foliosOf
  exact fold_dictInsert_keys_nodup (fun p => parse_folio_num p.1)
    (fun p => clean_contents p.2) L [] (by simp)

theorem addWord_words_eq (folio w : String) :
    ∀ (ws : List String) (fss : List (List String)),
      ws.length = fss.length →
      (addWord ws fss folio w).1 = if w ∈ ws then ws else ws ++ [w] := by
  intro ws
  induction ws with
  | nil =>
      intro fss h
      cases fss with
      | nil => simp [addWord]
      | cons fs fss => simp at h
  | cons w0 ws ih =>
      intro fss h
      cases fss with
      | nil => simp at h
      | cons fs fss =>
          simp only [List.length_cons, Nat.add_right_cancel_iff] at h
          simp only [addWord]
          by_cases hw : w0 = w
          · subst hw
            simp
          · have hne : ¬ (w = w0) := fun hh => hw hh.symm
            simp only [if_neg hw, ih fss h, List.mem_cons]
            by_cases hmem : w ∈ ws
            · simp [hmem, hne]
            · simp [hmem, hne]

theorem index_words_words_nodup (folio : String) (L : List String) :
    ∀ apps : Appearances, apps.words.length = apps.folios.length →
      apps.words.Nodup → (index_words folio apps L).words.Nodup := by
  induction L with
  | nil => intro apps _ hnd; exact hnd
  | cons x L ih =>
      intro apps hlen hnd
      have hstep : index_words folio apps (x :: L) =
          index_words folio
            ⟨(addWord apps.words apps.folios folio x).1,
             (addWord apps.words apps.folios folio x).2⟩ L := rfl
      rw [hstep]
      apply ih _ (addWord_length folio x apps.words apps.folios hlen)
      rw [addWord_words_eq folio x apps.words apps.folios hlen]
      by_cases hmem : x ∈ apps.words
      · simpa [hmem] using hnd
      · rw [if_neg hmem]
        simp [List.nodup_append, hnd, hmem]

theorem parse_word_appearances_nodup (cs : List String) (apps : Appearances)
    (f : String) (hlen : apps.words.length = apps.folios.length)
    (hnd : apps.words.Nodup) :
    (parse_word_appearances cs apps f).words.Nodup :=
  index_words_words_nodup f _ apps hlen hnd

theorem fold_parse_invariants {γ : Type} (f : γ → String) (g : γ → List String) :
    ∀ (L : List γ) (apps : Appearances),
      apps.words.length = apps.folios.length → apps.words.Nodup →
      (L.foldl (fun a p => parse_word_appearances (g p) a (f p)) apps).words.Nodup ∧
      (L.foldl (fun a p => parse_word_appearances (g p) a (f p)) apps).words.length =
        (L.foldl (fun a p => parse_word_appearances (g p) a (f p)) apps).folios.length := by
  intro L
  induction L with
  | nil => intro apps hlen hnd; exact ⟨hnd, hlen⟩
  | cons p L ih =>
      intro apps hlen hnd
      rw [List.foldl_cons]
      exact ih _ (parse_word_appearances_length _ apps _ hlen)
        (parse_word_appearances_nodup _ apps _ hlen hnd)

/-- Any parser run starting from the empty index satisfies the hypotheses of
the store round trip (claim C2): distinct folio names, distinct word names,
and parallel word/folio lists — the store's two UNIQUE constraints hold for
parser output by construction. -/
theorem parser_output_store_constraints (full_text : String) :
    (((split_folios full_text ⟨[], []⟩).1).map Prod.fst).Nodup ∧
    (split_folios full_text ⟨[], []⟩).2.words.Nodup ∧
    (split_folios full_text ⟨[], []⟩).2.words.length =
      (split_folios full_text ⟨[], []⟩).2.folios.length := by
  unfold split_folios
  rw [foldl_prod
    (fun d (p : List Char × List Char) =>
      dictInsert d (parse_folio_num ⟨p.1⟩) (clean_contents ⟨p.2⟩))
    (fun a (p : List Char × List Char) =>
      parse_word_appearances (clean_contents ⟨p.2⟩) a (parse_folio_num ⟨p.1⟩))
    (reSplit full_text.data).2 [] ⟨[], []⟩]
  have hinv := fold_parse_invariants
    (fun p : List Char × List Char => parse_folio_num ⟨p.1⟩)
    (fun p : List Char × List Char => clean_contents ⟨p.2⟩)
    (reSplit full_text.data).2 ⟨[], []⟩ rfl (by simp)
  exact ⟨fold_dictInsert_keys_nodup
    (fun p : List Char × List Char => parse_folio_num ⟨p.1⟩)
    (fun p : List Char × List Char => clean_contents ⟨p.2⟩) _ [] (by simp),
    hinv.1, hinv.2⟩


/-- C4: for a store with `N` folios, the folio at 0-indexed position `i` gets
a previous link exactly when `i > 0` — pointing at folio `i - 1` — and a next
link exactly when `i < N - 1` — pointing at folio `i + 1`; folio `0` has no
previous and folio `N - 1` no next link.  (`folio_before_at`/`folio_after_at`
are the neighbour computations of `generate_folio_pages`, whose `some`/`none`
values are what `generate_folio_page` renders into the present/absent anchor
tags.) -/
theorem claim4_nav_links (folio_names : List String) (i : Nat)
    (h : i < folio_names.length) :
    ((folio_before_at folio_names i).isSome ↔ 0 < i) ∧
    (∀ hi : 0 < i, folio_before_at folio_names i =
      some (folio_names.get ⟨i - 1, by omega⟩)) ∧
    ((folio_after_at folio_names i).isSome ↔ i < folio_names.length - 1) ∧
    (∀ hi : i < folio_names.length - 1, folio_after_at folio_names i =
      some (folio_names.get ⟨i + 1, by omega⟩)) := by
  refine ⟨?_, ?_, ?_, ?_⟩
  · unfold folio_before_at
    by_cases h0 : i = 0
    · simp [h0]
    · simp [h0]
      omega
  · intro hi
    unfold folio_before_at
    rw [if_neg (by omega)]
    have hb : i - 1 < folio_names.length := by omega
    rw [List.getD_eq_getElem folio_names "" hb]
    simp
  · unfold folio_after_at
    by_cases hl : i = folio_names.length - 1
    · simp [hl]
    · simp [hl]
      omega
  · intro hi
    unfold folio_after_at
    rw [if_neg (by omega)]
    have hb : i + 1 < folio_names.length := by omega
    rw [List.getD_eq_getElem folio_names "" hb]
    simp

/-- C4, witness: three folios; the middle one links both ways, the ends link
one way. -/
theorem claim4_witness :
    ((folio_before_at ["f1r", "f1v", "f2r"] 1).isSome ↔ 0 < 1) ∧
    (∀ _ : 0 < 1, folio_before_at ["f1r", "f1v", "f2r"] 1 =
      some (["f1r", "f1v", "f2r"].get ⟨0, by decide⟩)) ∧
    ((folio_after_at ["f1r", "f1v", "f2r"] 1).isSome ↔ 1 < 2) ∧
    (∀ _ : 1 < 2, folio_after_at ["f1r", "f1v", "f2r"] 1 =
      some (["f1r", "f1v", "f2r"].get ⟨2, by decide⟩)) :=
  claim4_nav_links ["f1r", "f1v", "f2r"] 1 (by decide)

/-! ## Claim C6: composite-name decomposition -/

/-- C6: decomposing `"f71v, f72r1,r2,3.jpg"` yields exactly
`["f71v", "f72r1", "f72r2", "f72r3"]`: the `f`-prefixed tokens stand alone,
`r2` inherits `f72` from the previous decomposed token, `3.jpg` is stripped
of `.jpg` and inherits `f72r` from the previous decomposed token. -/
theorem claim6_decompose :
    get_folio_names "f71v, f72r1,r2,3.jpg" =
      Except.ok ["f71v", "f72r1", "f72r2", "f72r3"] := by
  decide

/-! ## Claim C8: unresolvable composite token -/

/-- C8: a composite token resolvable against neither the preceding token's
`f\d+` nor its `f\d+[v|r]` pattern makes `get_folio_names` — and with it
`get_page_equivalents` — abort with an uncaught `IndexError`, but that
error's message is the fixed "list index out of range", which does not
mention the offending raw name, contradicting the claim's reporting
requirement. -/
theorem claim8_index_error :
    get_folio_names "3.jpg" = Except.error PyErr.indexError ∧
    get_page_equivalents ["3.jpg"] = Except.error PyErr.indexError ∧
    ¬ ("3.jpg".data <:+: indexErrorMsg.data) := by
  refine ⟨by decide, by decide, by decide⟩

/-! ## Claim C3: image policy -/

/-- C3, counterexample: folio `f12v` is in the known-gap set and its image
`f12v.jpg` is present in the media set, yet the pipeline renders the
missing-folio template (here `"MISSING"`), not the normal template as the
claim's present-image branch demands (which would give `"NORMAL"`): the
template choice in `generate_folio_pages` tests only gap membership, never
image presence. -/
theorem claim3_counterexample :
    "f12v" ∈ missing_folios ∧
    generate_folio_pages ⟨["f12v"], [], [], []⟩ "NORMAL" "MISSING"
        ["f12v.jpg"] [] = [("f12v", ⟨"MISSING", []⟩)] ∧
    (generate_folio_page ["f12v.jpg"] [] "f12v"
      (generate_folio_div (query_paragraphs ⟨["f12v"], [], [], []⟩ "f12v"))
      "NORMAL" none none true).page = "NORMAL" ∧
    ("MISSING" : String) ≠ "NORMAL" := by
  refine ⟨by decide, by decide, by decide, by decide⟩

/-- C3, amended: rendering follows the image policy with template choice by
gap membership alone.  With `image_name` the resolved filename: a non-gap
folio with the image present renders the normal template with the image
substituted for the placeholder `portrait.jpg` and no warning; a gap folio
always renders the missing-folio template (image substituted when present),
and never warns; a non-gap folio with the image absent renders the normal
template with the image block replaced by the missing-image notice and emits
exactly one warning naming the folio. -/
theorem claim3_image_policy (media : List String)
    (multis : List (String × String))
    (folio_name folio_paragraphs template missing_template : String)
    (folio_before folio_after : Option String) (dw : Bool)
    (image_name : String)
    (himg : image_name = (match multis.lookup folio_name with
      | some n => n
      | none => folio_name ++ ".jpg")) :
    (folio_name ∉ missing_folios → image_name ∈ media →
      generate_folio_page media multis folio_name folio_paragraphs template
          folio_before folio_after dw =
        ⟨pyReplace (base_folio_page template folio_name folio_paragraphs
            folio_before folio_after) "portrait.jpg" image_name, []⟩) ∧
    (folio_name ∈ missing_folios → image_name ∈ media →
      generate_folio_page media multis folio_name folio_paragraphs
          missing_template folio_before folio_after dw =
        ⟨pyReplace (base_folio_page missing_template folio_name
            folio_paragraphs folio_before folio_after) "portrait.jpg"
            image_name, []⟩) ∧
    (folio_name ∈ missing_folios → image_name ∉ media →
      generate_folio_page media multis folio_name folio_paragraphs
          missing_template folio_before folio_after dw =
        ⟨base_folio_page missing_template folio_name folio_paragraphs
            folio_before folio_after, []⟩) ∧
    (folio_name ∉ missing_folios → image_name ∉ media →
      generate_folio_page media multis folio_name folio_paragraphs template
          folio_before folio_after dw =
        ⟨pyReplace (base_folio_page template folio_name folio_paragraphs
            folio_before folio_after) folio_image missing_card,
          ["No image found for " ++ folio_name ++ "."]⟩) := by
  refine ⟨?_, ?_, ?_, ?_⟩
  · intro _ hin
    rw [generate_folio_page, ← himg, if_pos hin]
  · intro _ hin
    rw [generate_folio_page, ← himg, if_pos hin]
  · intro hgap hout
    rw [generate_folio_page, ← himg, if_neg hout, if_neg (by simpa using hgap)]
  · intro hgap hout
    rw [generate_folio_page, ← himg, if_neg hout, if_pos hgap]

/-- C3, witness: folio `f1r` (not a known gap) with its image absent gets the
notice and one warning; with the image present it gets the image substituted
and no warning. -/
theorem claim3_witness :
    generate_folio_page [] [] "f1r" "P" "NORMAL" none none true =
      ⟨pyReplace (base_folio_page "NORMAL" "f1r" "P" none none) folio_image
          missing_card, ["No image found for " ++ "f1r" ++ "."]⟩ ∧
    generate_folio_page ["f1r.jpg"] [] "f1r" "P" "NORMAL" none none true =
      ⟨pyReplace (base_folio_page "NORMAL" "f1r" "P" none none) "portrait.jpg"
          "f1r.jpg", []⟩ :=
  have h1 := claim3_image_policy [] [] "f1r" "P" "NORMAL" "MISSING"
    none none true "f1r.jpg" rfl
  have h2 := claim3_image_policy ["f1r.jpg"] [] "f1r" "P" "NORMAL" "MISSING"
    none none true "f1r.jpg" rfl
  ⟨h1.2.2.2 (by decide) (by decide), h2.1 (by decide) (by decide)⟩

/-! ## Lemmas about template substitution -/

theorem str_eq_of_data (a b : String) (h : a.data = b.data) : a = b := by
  cases a; cases b; exact congrArg String.mk h

theorem marker_data (k : String) :
    (marker k).data = '\x7b' :: '%' :: (k.data ++ ['%', '\x7d']) := by
  show ("\x7b%" ++ k ++ "%\x7d").data = _
  rw [String.data_append, String.data_append]
  simp

theorem marker_ne_nil (k : String) : (marker k).data ≠ [] := by
  rw [marker_data]; simp

theorem pyReplace_marker (t k v : String) :
    pyReplace t (marker k) v =
      ⟨replaceAux (marker k).data v.data t.data.length t.data⟩ := by
  unfold pyReplace
  rw [if_neg (marker_ne_nil k)]

theorem replaceAux_fuel (pat rep : List Char) (hne : pat ≠ []) :
    ∀ (fuel fuel' : Nat) (s : List Char), s.length ≤ fuel →
      s.length ≤ fuel' → replaceAux pat rep fuel s = replaceAux pat rep fuel' s := by
  intro fuel
  induction fuel with
  | zero =>
      intro fuel' s h _
      have hs : s = [] := List.length_eq_zero.mp (Nat.le_zero.mp h)
      subst hs
      cases fuel' <;> rfl
  | succ f ih =>
      intro fuel' s h h'
      cases s with
      | nil => cases fuel' <;> rfl
      | cons c rest =>
          cases fuel' with
          | zero => simp at h'
          | succ g =>
              simp only [replaceAux]
              by_cases hp : pat.isPrefixOf (c :: rest)
              · rw [if_pos hp, if_pos hp]
                have hple : pat.length ≤ (c :: rest).length :=
                  (List.isPrefixOf_iff_prefix.mp hp).length_le
                have h1 : 1 ≤ pat.length := by
                  cases pat with
                  | nil => exact absurd rfl hne
                  | cons _ _ => simp
                have hdl : ((c :: rest).drop pat.length).length =
                    (c :: rest).length - pat.length := List.length_drop _ _
                congr 1
                apply ih
                · rw [hdl]; simp only [List.length_cons] at h ⊢; omega
                · rw [hdl]; simp only [List.length_cons] at h' ⊢; omega
              · rw [if_neg hp, if_neg hp]
                congr 1
                apply ih
                · simp only [List.length_cons] at h; omega
                · simp only [List.length_cons] at h'; omega

theorem replaceAux_cons_not (pat rep : List Char) (c : Char) (s : List Char)
    (h : ¬ pat.isPrefixOf (c :: s)) :
    replaceAux pat rep (c :: s).length (c :: s) =
      c :: replaceAux pat rep s.length s := by
  simp only [List.length_cons, replaceAux, if_neg h]

theorem replaceAux_hit (pat rep : List Char) (hne : pat ≠ []) (s : List Char) :
    replaceAux pat rep (pat ++ s).length (pat ++ s) =
      rep ++ replaceAux pat rep s.length s := by
  cases pat with
  | nil => exact absurd rfl hne
  | cons p0 pat' =>
      have hp : (p0 :: pat').isPrefixOf ((p0 :: pat') ++ s) :=
        List.isPrefixOf_iff_prefix.mpr (List.prefix_append _ _)
      have hlen : ((p0 :: pat') ++ s).length = (pat' ++ s).length + 1 := by
        simp
      rw [hlen]
      show replaceAux (p0 :: pat') rep ((pat' ++ s).length + 1)
          (p0 :: (pat' ++ s)) = _
      simp only [replaceAux]
      have hp' : (p0 :: pat').isPrefixOf (p0 :: (pat' ++ s)) = true := hp
      rw [if_pos hp']
      have e : List.drop (p0 :: pat').length (p0 :: (pat' ++ s)) = s :=
        List.drop_left (p0 :: pat') s
      rw [e]
      congr 1
      apply replaceAux_fuel _ _ hne
      · simp
      · exact Nat.le_refl _

theorem replaceAux_skipLit (t rep : List Char) :
    ∀ (a s : List Char), (∀ c ∈ a, c ≠ '\x7b') →
      replaceAux ('\x7b' :: t) rep (a ++ s).length (a ++ s) =
        a ++ replaceAux ('\x7b' :: t) rep s.length s := by
  intro a
  induction a with
  | nil => intro s _; simp
  | cons c a ih =>
      intro s ha
      have hc : c ≠ '\x7b' := ha c (by simp)
      have hnp : ¬ ('\x7b' :: t).isPrefixOf (c :: (a ++ s)) := by
        intro hp
        rcases List.isPrefixOf_iff_prefix.mp hp with ⟨u, hu⟩
        simp only [List.cons_append, List.cons.injEq] at hu
        exact hc hu.1.symm
      rw [List.cons_append, replaceAux_cons_not _ _ _ _ hnp,
        ih s (fun x hx => ha x (by simp [hx]))]
      rfl

theorem key_tail_no_start :
    ∀ (k k' s : List Char), k ≠ k' → (∀ c ∈ k, c ≠ '%') →
      (∀ c ∈ k', c ≠ '%') →
      ¬ (k ++ ['%', '\x7d']).isPrefixOf ((k' ++ ['%', '\x7d']) ++ s) := by
  intro k
  induction k with
  | nil =>
      intro k' s hne _ hk'
      cases k' with
      | nil => exact absurd rfl hne
      | cons b k'' =>
          intro hp
          rcases List.isPrefixOf_iff_prefix.mp hp with ⟨u, hu⟩
          simp only [List.nil_append, List.cons_append, List.cons.injEq] at hu
          exact hk' b (by simp) hu.1.symm
  | cons a k ihk =>
      intro k' s hne hk hk'
      cases k' with
      | nil =>
          intro hp
          rcases List.isPrefixOf_iff_prefix.mp hp with ⟨u, hu⟩
          simp only [List.nil_append, List.cons_append, List.cons.injEq] at hu
          exact hk a (by simp) hu.1
      | cons b k'' =>
          by_cases hab : a = b
          · subst hab
            intro hp
            have hp' : (k ++ ['%', '\x7d']).isPrefixOf ((k'' ++ ['%', '\x7d']) ++ s) := by
              simp only [List.cons_append, List.isPrefixOf, beq_self_eq_true,
                Bool.true_and] at hp
              exact hp
            exact ihk k'' s (by intro h; exact hne (by rw [h]))
              (fun x hx => hk x (by simp [hx]))
              (fun x hx => hk' x (by simp [hx])) hp'
          · intro hp
            rcases List.isPrefixOf_iff_prefix.mp hp with ⟨u, hu⟩
            simp only [List.cons_append, List.cons.injEq] at hu
            exact hab hu.1

theorem marker_no_start (k k' : String) (hk : cleanKey k) (hk' : cleanKey k')
    (hne : k ≠ k') (s : List Char) :
    ¬ (marker k).data.isPrefixOf ((marker k').data ++ s) := by
  rw [marker_data, marker_data]
  intro hp
  simp only [List.cons_append, List.isPrefixOf, beq_self_eq_true,
    Bool.true_and] at hp
  have hdne : k.data ≠ k'.data := by
    intro h
    exact hne (str_eq_of_data k k' h)
  exact key_tail_no_start k.data k'.data s hdne
    (fun c hc => ((hk c hc).2).1)
    (fun c hc => ((hk' c hc).2).1) hp

theorem replaceAux_skipMarker (k k' v : String) (hk : cleanKey k)
    (hk' : cleanKey k') (hne : k ≠ k') (s : List Char) :
    replaceAux (marker k).data v.data ((marker k').data ++ s).length
        ((marker k').data ++ s) =
      (marker k').data ++ replaceAux (marker k).data v.data s.length s := by
  have hnp : ¬ (marker k).data.isPrefixOf ((marker k').data ++ s) :=
    marker_no_start k k' hk hk' hne s
  obtain ⟨t, ht⟩ : ∃ t, (marker k).data = '\x7b' :: t := ⟨_, marker_data k⟩
  have htail : ∀ c ∈ '%' :: (k'.data ++ ['%', '\x7d']), c ≠ '\x7b' := by
    intro c hc
    rcases List.mem_cons.mp hc with rfl | hc2
    · decide
    rcases List.mem_append.mp hc2 with hc3 | hc4
    · exact (hk' c hc3).1
    · rcases List.mem_cons.mp hc4 with rfl | hc5
      · decide
      rcases List.mem_cons.mp hc5 with rfl | hc6
      · decide
      · simp at hc6
  have h1 : (marker k').data ++ s =
      '\x7b' :: (('%' :: (k'.data ++ ['%', '\x7d'])) ++ s) := by
    rw [marker_data]
    rfl
  rw [h1, replaceAux_cons_not _ _ _ _ (by rw [← h1]; exact hnp)]
  rw [ht, replaceAux_skipLit t v.data ('%' :: (k'.data ++ ['%', '\x7d'])) s htail]
  rw [marker_data k']
  simp

theorem renderT_data_cons (p : TPart) (P : List TPart) :
    (renderT (p :: P)).data = (renderPart p).data ++ (renderT P).data :=
  String.data_append _ _

theorem replaceAux_pass (k v : String) (hk : cleanKey k) :
    ∀ P : List TPart,
      (∀ k', TPart.hole k' ∈ P → cleanKey k') →
      (∀ c, TPart.lit c ∈ P → braceFree c) →
      replaceAux (marker k).data v.data (renderT P).data.length
          (renderT P).data =
        (renderT (P.map (fillPart [(k, v)]))).data := by
  intro P
  induction P with
  | nil => intro _ _; rfl
  | cons p P ih =>
      intro hholes hlits
      have ihP := ih (fun k' hk' => hholes k' (by simp [hk']))
        (fun c hc => hlits c (by simp [hc]))
      cases p with
      | lit c =>
          have hbf : braceFree c := hlits c (by simp)
          have hbf' : ∀ ch ∈ c.data, ch ≠ '\x7b' := by
            intro ch hch heq
            exact hbf (heq ▸ hch)
          rw [renderT_data_cons]
          show replaceAux (marker k).data v.data
              (c.data ++ (renderT P).data).length
              (c.data ++ (renderT P).data) = _
          obtain ⟨t, ht⟩ : ∃ t, (marker k).data = '\x7b' :: t :=
            ⟨_, marker_data k⟩
          rw [ht, replaceAux_skipLit t v.data c.data (renderT P).data hbf',
            ← ht, ihP, List.map_cons, renderT_data_cons]
          rfl
      | hole k' =>
          by_cases hkk : k' = k
          · subst hkk
            rw [renderT_data_cons]
            show replaceAux (marker k').data v.data
                ((marker k').data ++ (renderT P).data).length
                ((marker k').data ++ (renderT P).data) = _
            rw [replaceAux_hit _ _ (marker_ne_nil k') _, ihP,
              List.map_cons, renderT_data_cons]
            have hf : fillPart [(k', v)] (TPart.hole k') = TPart.lit v := by
              simp [fillPart, List.lookup]
            rw [hf]
            rfl
          · have hck' : cleanKey k' := hholes k' (by simp)
            rw [renderT_data_cons]
            show replaceAux (marker k).data v.data
                ((marker k').data ++ (renderT P).data).length
                ((marker k').data ++ (renderT P).data) = _
            rw [replaceAux_skipMarker k k' v hk hck'
              (fun h => hkk h.symm) (renderT P).data, ihP,
              List.map_cons, renderT_data_cons]
            have hbeq : (k' == k) = false := beq_eq_false_iff_ne.mpr hkk
            have hf : fillPart [(k, v)] (TPart.hole k') = TPart.hole k' := by
              simp [fillPart, List.lookup, hbeq]
            rw [hf]
            rfl

theorem fillPart_step (k v : String) (d' : List (String × String)) (p : TPart) :
    fillPart d' (fillPart [(k, v)] p) = fillPart ((k, v) :: d') p := by
  cases p with
  | lit c => rfl
  | hole k0 =>
      by_cases h : k0 = k
      · subst h
        simp [fillPart, List.lookup]
      · have hbeq : (k0 == k) = false := beq_eq_false_iff_ne.mpr h
        simp [fillPart, List.lookup, hbeq]

theorem map_fillPart_nil (P : List TPart) : P.map (fillPart []) = P := by
  induction P with
  | nil => rfl
  | cons p P ih => cases p <;> simp [fillPart, List.lookup, ih]

theorem replace_templates_spec :
    ∀ (d : List (String × String)) (P : List TPart),
      (∀ kv ∈ d, cleanKey kv.1) → (∀ kv ∈ d, braceFree kv.2) →
      (∀ k, TPart.hole k ∈ P → cleanKey k) →
      (∀ c, TPart.lit c ∈ P → braceFree c) →
      replace_templates d (renderT P) = substituteAll d P := by
  intro d
  induction d with
  | nil =>
      intro P _ _ _ _
      show renderT P = substituteAll [] P
      rw [substituteAll, map_fillPart_nil]
  | cons kv d' ihd =>
      obtain ⟨k, v⟩ := kv
      intro P hkeys hvals hholes hlits
      have hck : cleanKey k := hkeys (k, v) (by simp)
      have hbv : braceFree v := hvals (k, v) (by simp)
      have hstep : replace_templates ((k, v) :: d') (renderT P) =
          replace_templates d' (pyReplace (renderT P) (marker k) v) := rfl
      have hpass : pyReplace (renderT P) (marker k) v =
          renderT (P.map (fillPart [(k, v)])) := by
        apply str_eq_of_data
        rw [pyReplace_marker]
        exact replaceAux_pass k v hck P hholes hlits
      have hhol : ∀ k1, TPart.hole k1 ∈ P.map (fillPart [(k, v)]) →
          cleanKey k1 := by
        intro k1 h1
        obtain ⟨p, hp, hfp⟩ := List.mem_map.mp h1
        cases p with
        | lit c => simp [fillPart] at hfp
        | hole k2 =>
            by_cases h2 : k2 = k
            · subst h2; simp [fillPart, List.lookup] at hfp
            · have hbeq : (k2 == k) = false := beq_eq_false_iff_ne.mpr h2
              simp only [fillPart, List.lookup, hbeq, TPart.hole.injEq] at hfp
              exact hfp ▸ hholes k2 hp
      have hlit : ∀ c1, TPart.lit c1 ∈ P.map (fillPart [(k, v)]) →
          braceFree c1 := by
        intro c1 h1
        obtain ⟨p, hp, hfp⟩ := List.mem_map.mp h1
        cases p with
        | lit c =>
            simp only [fillPart, TPart.lit.injEq] at hfp
            exact hfp ▸ hlits c hp
        | hole k2 =>
            by_cases h2 : k2 = k
            · subst h2
              simp only [fillPart, List.lookup, beq_self_eq_true,
                TPart.lit.injEq] at hfp
              exact hfp ▸ hbv
            · have hbeq : (k2 == k) = false := beq_eq_false_iff_ne.mpr h2
              simp [fillPart, List.lookup, hbeq] at hfp
      rw [hstep, hpass, ihd (P.map (fillPart [(k, v)]))
        (fun kv2 h2 => hkeys kv2 (by simp [h2]))
        (fun kv2 h2 => hvals kv2 (by simp [h2])) hhol hlit]
      unfold substituteAll
      rw [List.map_map]
      have hcomp : (fillPart d' ∘ fillPart [(k, v)]) = fillPart ((k, v) :: d') :=
        funext (fillPart_step k v d')
      rw [hcomp]

theorem lookup_of_mem_keys :
    ∀ (d : List (String × String)) (k : String), k ∈ d.map Prod.fst →
      ∃ v, List.lookup k d = some v ∧ (k, v) ∈ d := by
  intro d
  induction d with
  | nil => intro k h; simp at h
  | cons kv d ih =>
      obtain ⟨k0, v0⟩ := kv
      intro k h
      by_cases hk0 : k = k0
      · subst hk0
        exact ⟨v0, by simp [List.lookup], by simp⟩
      · have h2 : k ∈ d.map Prod.fst := by
          rw [List.map_cons] at h
          rcases List.mem_cons.mp h with h3 | h3
          · exact absurd h3 hk0
          · exact h3
        obtain ⟨v, hl, hm⟩ := ih k h2
        refine ⟨v, ?_, by simp [hm]⟩
        have hbeq : (k == k0) = false := beq_eq_false_iff_ne.mpr hk0
        simp [List.lookup, hbeq, hl]

theorem substituteAll_braceFree (d : List (String × String))
    (hvals : ∀ kv ∈ d, braceFree kv.2) :
    ∀ P : List TPart,
      (∀ k, TPart.hole k ∈ P → k ∈ d.map Prod.fst) →
      (∀ c, TPart.lit c ∈ P → braceFree c) →
      '\x7b' ∉ (substituteAll d P).data := by
  intro P
  induction P with
  | nil => intro _ _; simp [substituteAll, renderT]
  | cons p P ih =>
      intro hholes hlits
      have hd : (substituteAll d (p :: P)).data =
          (renderPart (fillPart d p)).data ++ (substituteAll d P).data := by
        unfold substituteAll
        rw [List.map_cons, renderT_data_cons]
      rw [hd]
      intro hmem
      rcases List.mem_append.mp hmem with h1 | h2
      · cases p with
        | lit c =>
            exact hlits c (by simp) h1
        | hole k =>
            obtain ⟨v, hl, hm⟩ := lookup_of_mem_keys d k (hholes k (by simp))
            rw [show fillPart d (TPart.hole k) = TPart.lit v by
              simp [fillPart, hl]] at h1
            exact hvals (k, v) hm h1
      · exact ih (fun k h => hholes k (by simp [h]))
          (fun c h => hlits c (by simp [h])) h2

theorem no_marker_infix (t : String) (hbf : '\x7b' ∉ t.data) (k : String) :
    ¬ ((marker k).data <:+: t.data) := by
  intro hinf
  obtain ⟨u, w, huw⟩ := hinf
  apply hbf
  rw [← huw, marker_data]
  simp

/-! ## Claim C5: template substitution -/

/-- C5, counterexample: with the dictionary `[("a", ""), ("b", "")]` — whose
computed values are empty, so no value contains any placeholder marker — the
template `{%{%b%}a%}` substitutes to `{%a%}`: replacing `{%b%}` by `""`
juxtaposes `{%` and `a%}` into a new marker of the dictionary, which the
already-finished `a` pass never revisits.  The result therefore contains a
marker from the dictionary, refuting the claim. -/
theorem claim5_counterexample :
    replace_templates [("a", ""), ("b", "")] "\x7b%\x7b%b%\x7da%\x7d" =
      marker "a" ∧
    ¬ ((marker "a").data <:+: "".data) ∧
    ¬ ((marker "b").data <:+: "".data) ∧
    ((marker "a").data <:+:
      (replace_templates [("a", ""), ("b", "")] "\x7b%\x7b%b%\x7da%\x7d").data) := by
  refine ⟨by decide, by decide, by decide, by decide⟩

/-- C5, amended: substitution is single-pass and non-recursive — one
`str.replace` pass per dictionary entry, in order, each replacing every
current occurrence of its marker.  Under the strengthened precondition that
the template decomposes into literal chunks and placeholder markers, where
the keys contain none of `{`, `%`, `}`, every hole key is a dictionary key,
and neither the literal chunks nor the computed values contain `{` (so that
no replacement can juxtapose a new marker), the result equals the
simultaneous substitution of all placeholders and contains no marker of the
dictionary. -/
theorem claim5_substitution (d : List (String × String)) (P : List TPart)
    (hkeys : ∀ kv ∈ d, cleanKey kv.1)
    (hvals : ∀ kv ∈ d, braceFree kv.2)
    (hholesClean : ∀ k, TPart.hole k ∈ P → cleanKey k)
    (hholesIn : ∀ k, TPart.hole k ∈ P → k ∈ d.map Prod.fst)
    (hlits : ∀ c, TPart.lit c ∈ P → braceFree c) :
    replace_templates d (renderT P) = substituteAll d P ∧
    ∀ kv ∈ d,
      ¬ ((marker kv.1).data <:+: (replace_templates d (renderT P)).data) := by
  have heq := replace_templates_spec d P hkeys hvals hholesClean hlits
  refine ⟨heq, ?_⟩
  intro kv _
  rw [heq]
  exact no_marker_infix _ (substituteAll_braceFree d hvals P hholesIn hlits)
    kv.1

/-- C5, witness: the template `A{%a%}B{%b%}` with values `X`, `Y`. -/
theorem claim5_witness :
    replace_templates [("a", "X"), ("b", "Y")]
      (renderT [TPart.lit "A", TPart.hole "a", TPart.lit "B", TPart.hole "b"]) =
      substituteAll [("a", "X"), ("b", "Y")]
        [TPart.lit "A", TPart.hole "a", TPart.lit "B", TPart.hole "b"] ∧
    ∀ kv ∈ [("a", "X"), ("b", "Y")],
      ¬ ((marker kv.1).data <:+:
        (replace_templates [("a", "X"), ("b", "Y")]
          (renderT [TPart.lit "A", TPart.hole "a", TPart.lit "B",
            TPart.hole "b"])).data) :=
  claim5_substitution [("a", "X"), ("b", "Y")]
    [TPart.lit "A", TPart.hole "a", TPart.lit "B", TPart.hole "b"]
    (by decide) (by decide)
    (by
      intro k hk
      simp at hk
      rcases hk with rfl | rfl <;> decide)
    (by
      intro k hk
      simp at hk
      rcases hk with rfl | rfl <;> decide)
    (by
      intro c hc
      simp at hc
      rcases hc with rfl | rfl <;> decide)

end Voynich
